import Mathlib

/-!
# Disk usage walker and usage-check interval (`cmd/disk-usage.go`)

A shallow embedding of `cmd/disk-usage.go`.

* Go functions with side effects are embedded by explicit state passing: a call
  takes the world state `σ` and returns its Go result together with the next
  world state.
* A Go result of type `error` is an `Option`: `none` is `nil`.
* `walk` is recursive without a decreasing argument, so the embedding carries a
  fuel counter; an exhausted counter is reported as the outcome `none`, next to
  the world state reached so far.
* Helpers of package `cmd` that live in other files (`readDir`, `pathJoin`,
  `hasSuffix`, `slashSeparator`, `globalMinimumUsageCheckInterval`,
  `globalIsEnvUsageCheck`) and the Go standard library calls are parameters of
  the embedding.
-/

namespace DiskUsage

/-! ## TreeWalker -/

/-- The type `usageFunc func(ctx context.Context, entry string) error`: the
visitor reads and updates the world state and returns `nil` or an error. -/
abbrev usageFunc (κ σ ε : Type) := κ → String → σ → Option ε × σ

/-- Collaborators of `walk` that are declared elsewhere in package `cmd`. -/
structure Collab (σ ε : Type) where
  /-- The call `readDir(path)`: child names or an error, and the next world state. -/
  readDir : String → σ → Except ε (List String) × σ
  /-- The call `pathJoin(path, entry)`. -/
  pathJoin : String → String → String
  /-- The call `hasSuffix(path, suffix)`. -/
  hasSuffix : String → String → Bool
  /-- The constant `slashSeparator`. -/
  slashSeparator : String

/-- The loop `for _, entry := range entries` of `walk`, with the recursive call
`walk(ctx, fname, usageFn)` passed as `recur`. The outcome `none` says the
recursive call ran out of fuel. -/
def walkEntries {σ ε : Type} (c : Collab σ ε)
    (recur : String → σ → Option (Option ε) × σ) (path : String) :
    List String → σ → Option (Option ε) × σ
  | [], s => (some none, s)
  | entry :: rest, s =>
    let fname := c.pathJoin path entry
    match recur fname s with
    | (some none, s1) => walkEntries c recur path rest s1
    | (some (some err), s1) => (some (some err), s1)
    | (none, s1) => (none, s1)

/-- The function `walk(ctx, path, usageFn)`. The first argument is the fuel:
the number of nested `walk` calls still allowed. The outcome is `none` when the
fuel ran out, `some none` when `walk` returned `nil` and `some (some err)` when
it returned `err`. -/
def walk {κ σ ε : Type} (c : Collab σ ε) (ctx : κ) (usageFn : usageFunc κ σ ε) :
    Nat → String → σ → Option (Option ε) × σ
  | 0, _, s => (none, s)
  | fuel + 1, path, s =>
    match usageFn ctx path s with
    | (some err, s1) => (some (some err), s1)
    | (none, s1) =>
      if !c.hasSuffix path c.slashSeparator then
        (some none, s1)
      else
        match c.readDir path s1 with
        | (Except.error _, s2) =>
          match usageFn ctx path s2 with
          | (r, s3) => (some r, s3)
        | (Except.ok entries, s2) =>
          walkEntries c (walk c ctx usageFn fuel) path entries s2

/-- The function `getDiskUsage(ctx, root, usageFn)`. -/
def getDiskUsage {κ σ ε : Type} (c : Collab σ ε) (ctx : κ) (root : String)
    (usageFn : usageFunc κ σ ε) (fuel : Nat) (s : σ) : Option (Option ε) × σ :=
  walk c ctx usageFn fuel (root ++ c.slashSeparator) s

/-! ### Observing the calls -/

/-- One call made by `walk`, with what the call returned. -/
inductive Event (ε : Type) where
  /-- A call `usageFn(ctx, path)` and its result. -/
  | visit (path : String) (res : Option ε)
  /-- A call `readDir(path)` and its result. -/
  | list (path : String) (res : Except ε (List String))

/-- The visitor `usageFn`, recording each of its calls at the end of a log. -/
def logVisit {κ σ ε : Type} (usageFn : usageFunc κ σ ε) :
    usageFunc κ (σ × List (Event ε)) ε :=
  fun ctx path sl =>
    match usageFn ctx path sl.1 with
    | (r, s1) => (r, (s1, sl.2 ++ [Event.visit path r]))

/-- The collaborators, with `readDir` recording each of its calls at the end of
a log. -/
def logCollab {σ ε : Type} (c : Collab σ ε) : Collab (σ × List (Event ε)) ε where
  readDir := fun path sl =>
    match c.readDir path sl.1 with
    | (r, s1) => (r, (s1, sl.2 ++ [Event.list path r]))
  pathJoin := c.pathJoin
  hasSuffix := c.hasSuffix
  slashSeparator := c.slashSeparator

/-- The calls `walk` makes, in order, when started in world state `s`. -/
def trace {κ σ ε : Type} (c : Collab σ ε) (ctx : κ) (usageFn : usageFunc κ σ ε)
    (fuel : Nat) (path : String) (s : σ) : List (Event ε) :=
  (walk (logCollab c) ctx (logVisit usageFn) fuel path (s, [])).2.2

/-- The paths of the visitor calls in a log, in order. -/
def visits {ε : Type} : List (Event ε) → List String
  | [] => []
  | Event.visit p _ :: rest => p :: visits rest
  | Event.list _ _ :: rest => visits rest

/-- The paths of the listing calls in a log, in order. -/
def listings {ε : Type} : List (Event ε) → List String
  | [] => []
  | Event.visit _ _ :: rest => listings rest
  | Event.list p _ :: rest => p :: listings rest

/-! ### Directory trees -/

/-- A finite directory tree as `walk` sees it. A `file` is a path `walk` does
not descend into, a `dir` is a directory whose listing succeeds, with the
subtrees of its entries in listing order, and an `unreadable` node is a
directory whose listing fails. -/
inductive Tree where
  | file (path : String)
  | dir (path : String) (children : List Tree)
  | unreadable (path : String)

/-- The path of the root node of a tree. -/
def Tree.path : Tree → String
  | Tree.file p => p
  | Tree.dir p _ => p
  | Tree.unreadable p => p

mutual
/-- The number of levels of a tree. -/
def Tree.depth : Tree → Nat
  | Tree.file _ => 1
  | Tree.dir _ kids => Tree.depthList kids + 1
  | Tree.unreadable _ => 1
/-- The largest depth among a list of trees. -/
def Tree.depthList : List Tree → Nat
  | [] => 0
  | t :: ts => max t.depth (Tree.depthList ts)
end

mutual
/-- The number of nodes of a tree. -/
def Tree.size : Tree → Nat
  | Tree.file _ => 1
  | Tree.dir _ kids => Tree.sizeList kids + 1
  | Tree.unreadable _ => 1
/-- The number of nodes of a list of trees. -/
def Tree.sizeList : List Tree → Nat
  | [] => 0
  | t :: ts => t.size + Tree.sizeList ts
end

mutual
/-- The pre-order of a tree: the root, then the pre-orders of its children from
first to last. Every node contributes its path once. -/
def Tree.preorder : Tree → List String
  | Tree.file p => [p]
  | Tree.dir p kids => p :: Tree.preorderList kids
  | Tree.unreadable p => [p]
/-- The pre-orders of a list of trees, one after the other. -/
def Tree.preorderList : List Tree → List String
  | [] => []
  | t :: ts => t.preorder ++ Tree.preorderList ts
end

mutual
/-- The directories of a tree (readable or not) in pre-order. -/
def Tree.dirs : Tree → List String
  | Tree.file _ => []
  | Tree.dir p kids => p :: Tree.dirsList kids
  | Tree.unreadable p => [p]
/-- The directories of a list of trees in pre-order. -/
def Tree.dirsList : List Tree → List String
  | [] => []
  | t :: ts => t.dirs ++ Tree.dirsList ts
end

mutual
/-- Whether no directory of the tree has a failing listing. -/
def Tree.readable : Tree → Bool
  | Tree.file _ => true
  | Tree.dir _ kids => Tree.readableList kids
  | Tree.unreadable _ => false
/-- Whether no directory in a list of trees has a failing listing. -/
def Tree.readableList : List Tree → Bool
  | [] => true
  | t :: ts => t.readable && Tree.readableList ts
end

/-- The tree `t` is what the collaborators `c` present below `t.path`: a path
is a file when it lacks the separator suffix; a directory lists, in every world
state, the names whose joins with its path are the paths of its children; an
unreadable directory fails to list in every world state. -/
inductive Describes {σ ε : Type} (c : Collab σ ε) : Tree → Prop where
  | file (p : String) (hfile : c.hasSuffix p c.slashSeparator = false) :
      Describes c (Tree.file p)
  | dir (p : String) (kids : List Tree) (names : List String)
      (hdir : c.hasSuffix p c.slashSeparator = true)
      (hlist : ∀ s, (c.readDir p s).1 = Except.ok names)
      (hkids : kids.map Tree.path = names.map (c.pathJoin p))
      (hsub : ∀ k, k ∈ kids → Describes c k) :
      Describes c (Tree.dir p kids)
  | unreadable (p : String) (hdir : c.hasSuffix p c.slashSeparator = true)
      (hlist : ∀ s, ∃ e, (c.readDir p s).1 = Except.error e) :
      Describes c (Tree.unreadable p)

mutual
/-- The visitor calls expected on a tree when no visitor call fails: the
pre-order, with an unreadable directory called twice in a row. -/
def Tree.calls : Tree → List String
  | Tree.file p => [p]
  | Tree.dir p kids => p :: Tree.callsList kids
  | Tree.unreadable p => [p, p]
/-- The visitor calls expected on a list of trees, one tree after the other. -/
def Tree.callsList : List Tree → List String
  | [] => []
  | t :: ts => t.calls ++ Tree.callsList ts
end

mutual
/-- The number of unreadable directories of a tree. -/
def Tree.failures : Tree → Nat
  | Tree.file _ => 0
  | Tree.dir _ kids => Tree.failuresList kids
  | Tree.unreadable _ => 1
/-- The number of unreadable directories in a list of trees. -/
def Tree.failuresList : List Tree → Nat
  | [] => 0
  | t :: ts => t.failures + Tree.failuresList ts
end

/-- The calls `getDiskUsage` makes, in order, when started in world state `s`. -/
def usageTrace {κ σ ε : Type} (c : Collab σ ε) (ctx : κ) (root : String)
    (usageFn : usageFunc κ σ ε) (fuel : Nat) (s : σ) : List (Event ε) :=
  (getDiskUsage (logCollab c) ctx root (logVisit usageFn) fuel (s, [])).2.2

/-! ### The calls of `walk`, computed directly -/

/-- The loop of `walk` together with the calls it makes: `walkEntries` for a
recursive call that also returns its calls. -/
def runEntries {σ ε : Type} (c : Collab σ ε)
    (recur : String → σ → Option (Option ε) × σ × List (Event ε)) (path : String) :
    List String → σ → Option (Option ε) × σ × List (Event ε)
  | [], s => (some none, s, [])
  | entry :: rest, s =>
    match recur (c.pathJoin path entry) s with
    | (some none, s1, evs1) =>
      match runEntries c recur path rest s1 with
      | (r, s2, evs2) => (r, s2, evs1 ++ evs2)
    | (some (some err), s1, evs1) => (some (some err), s1, evs1)
    | (none, s1, evs1) => (none, s1, evs1)

/-- The function `walk` together with the calls it makes: outcome, final world
state and the list of calls in order. -/
def run {κ σ ε : Type} (c : Collab σ ε) (ctx : κ) (usageFn : usageFunc κ σ ε) :
    Nat → String → σ → Option (Option ε) × σ × List (Event ε)
  | 0, _, s => (none, s, [])
  | fuel + 1, path, s =>
    match usageFn ctx path s with
    | (some err, s1) => (some (some err), s1, [Event.visit path (some err)])
    | (none, s1) =>
      if !c.hasSuffix path c.slashSeparator then
        (some none, s1, [Event.visit path none])
      else
        match c.readDir path s1 with
        | (Except.error e, s2) =>
          match usageFn ctx path s2 with
          | (r, s3) =>
            (some r, s3, [Event.visit path none, Event.list path (Except.error e),
              Event.visit path r])
        | (Except.ok entries, s2) =>
          match runEntries c (run c ctx usageFn fuel) path entries s2 with
          | (r, s3, evs) =>
            (r, s3, Event.visit path none :: Event.list path (Except.ok entries) :: evs)

/-! ### Shapes of a call log -/

/-- No visitor call in the log returned an error. -/
def noFailedVisit {ε : Type} (evs : List (Event ε)) : Prop :=
  ∀ p e, Event.visit p (some e) ∉ evs

/-- The log of a run with outcome `r`: when the outcome is an error `e`, the
last call of the log is a visitor call that returned `e` and no earlier visitor
call returned an error; for every other outcome no visitor call returned an
error. -/
def ErrorLast {ε : Type} (r : Option (Option ε)) (evs : List (Event ε)) : Prop :=
  match r with
  | some (some e) => ∃ pre p, evs = pre ++ [Event.visit p (some e)] ∧ noFailedVisit pre
  | _ => noFailedVisit evs

/-- The paths a log asks to be listed, in order: the paths of the successful
first visitor calls on paths for which `isDir` holds. A visitor call that comes
directly after a failed listing is the second call on that directory, not a
first call; the flag says whether the previous call was a failed listing. -/
def descents {ε : Type} (isDir : String → Bool) : Bool → List (Event ε) → List String
  | _, [] => []
  | afterFailure, Event.visit p r :: rest =>
    if !afterFailure && r.isNone && isDir p then p :: descents isDir false rest
    else descents isDir false rest
  | _, Event.list _ (Except.error _) :: rest => descents isDir true rest
  | _, Event.list _ (Except.ok _) :: rest => descents isDir false rest

/-- The visitor `usageFn` with its errors suppressed: the same effect on the
world state, the result always `nil`. -/
def quiet {κ σ ε : Type} (usageFn : usageFunc κ σ ε) : usageFunc κ σ ε :=
  fun ctx path s => (none, (usageFn ctx path s).2)

/-- How a run `R` relates to the run `Q` of the same walk with the visitor's
errors suppressed: when `R` ended with an error, the two logs agree up to the
failing call, which is the last call of `R`; otherwise the runs are the same. -/
def Quieted {σ ε : Type} (R Q : Option (Option ε) × σ × List (Event ε)) : Prop :=
  match R.1 with
  | some (some e) => ∃ pre p post,
      R.2.2 = pre ++ [Event.visit p (some e)] ∧ Q.2.2 = pre ++ Event.visit p none :: post
  | _ => Q = R

/-- A visitor that fails on the path `bad` and counts its calls. -/
def failOn (bad : String) : usageFunc Unit Nat String :=
  fun _ path n => if path = bad then (some "denied", n + 1) else (none, n + 1)

/-- A visitor that counts its calls and fails from call number `n` on
(counting from zero). -/
def failFrom (n : Nat) : usageFunc Unit Nat String :=
  fun _ _ k => if n ≤ k then (some "quota", k + 1) else (none, k + 1)

/-! ### The example tree of the specification -/

/-- Modelled from the spec: `hasSuffix(path, marker)` of package `cmd` is not in
this file; the example uses the plain test that `path` ends with `suffix`. -/
def exampleHasSuffix (path suffix : String) : Bool :=
  suffix.data.isSuffixOf path.data

/-- Modelled from the spec: `pathJoin` of package `cmd` is not in this file; it
"concatenates per path convention, preserving suffix markers for
subdirectories". For a directory path that ends with the separator and a plain
entry name that is the concatenation. -/
def examplePathJoin (dir name : String) : String :=
  dir ++ name

/-- The listing of the example: `/a/` holds `b/` and `c`, `/a/b/` is empty, and
nothing else can be listed. The world state is the number of visitor calls so
far, which listing leaves alone. -/
def exampleReadDir (path : String) (n : Nat) : Except String (List String) × Nat :=
  if path = "/a/" then (Except.ok ["b/", "c"], n)
  else if path = "/a/b/" then (Except.ok [], n)
  else (Except.error "not a directory", n)

/-- The collaborators of the example. -/
def exampleCollab : Collab Nat String where
  readDir := exampleReadDir
  pathJoin := examplePathJoin
  hasSuffix := exampleHasSuffix
  slashSeparator := "/"

/-- A visitor that counts its calls and never fails. -/
def countUsage : usageFunc Unit Nat String :=
  fun _ _ n => (none, n + 1)

/-- The example tree: root `/a/` with the empty directory `/a/b/` and the file
`/a/c`. -/
def exampleTree : Tree :=
  Tree.dir "/a/" [Tree.dir "/a/b/" [], Tree.file "/a/c"]

/-- The listing of the example when `/a/b/` cannot be read: only `/a/` lists. -/
def flakyReadDir (path : String) (n : Nat) : Except String (List String) × Nat :=
  if path = "/a/" then (Except.ok ["b/", "c"], n)
  else (Except.error "permission denied", n)

/-- The collaborators of the example when `/a/b/` cannot be read. -/
def flakyCollab : Collab Nat String where
  readDir := flakyReadDir
  pathJoin := examplePathJoin
  hasSuffix := exampleHasSuffix
  slashSeparator := "/"

/-- The example tree when `/a/b/` cannot be read. -/
def flakyTree : Tree :=
  Tree.dir "/a/" [Tree.unreadable "/a/b/", Tree.file "/a/c"]

/-- A listing without end: every directory holds the one entry `x/`. -/
def endlessCollab : Collab Nat String where
  readDir := fun _ n => (Except.ok ["x/"], n)
  pathJoin := examplePathJoin
  hasSuffix := exampleHasSuffix
  slashSeparator := "/"

/-! ## UsageInterval -/

/-- The type `time.Duration`: a count of nanoseconds, an `int64` in Go. -/
abbrev Duration := Int

/-- The constant `time.Nanosecond`. -/
def Nanosecond : Duration := 1
/-- The constant `time.Microsecond`. -/
def Microsecond : Duration := 1000 * Nanosecond
/-- The constant `time.Millisecond`. -/
def Millisecond : Duration := 1000 * Microsecond
/-- The constant `time.Second`. -/
def Second : Duration := 1000 * Millisecond
/-- The constant `time.Minute`. -/
def Minute : Duration := 60 * Second
/-- The constant `time.Hour`. -/
def Hour : Duration := 60 * Minute

/-- The Go `error` values of this component. An error made by `errors.New` or
`fmt.Errorf` is its message; the errors of `encoding/json` are told apart by
their dynamic type only. -/
inductive GoError where
  | errorString (msg : String)
  | jsonSyntaxError
  | jsonUnmarshalTypeError
  deriving DecidableEq

/-- The type `usageConfig`. -/
structure usageConfig where
  UsageCheckInterval : Duration
  deriving DecidableEq

/-- The local type `_usageConfig` of `MarshalJSON` and `UnmarshalJSON`: one
string field with the JSON name `interval`. -/
structure _usageConfig where
  UsageCheckInterval : String
  deriving DecidableEq

/-- The Go standard library calls of this component. Byte slices are modelled
as strings. -/
structure Std where
  /-- The call `time.ParseDuration(s)`. -/
  ParseDuration : String → Duration × Option GoError
  /-- The method `d.String()` of `time.Duration`. -/
  durationString : Duration → String
  /-- The call `json.Marshal(v)` for `v` of type `_usageConfig`. -/
  jsonMarshal : _usageConfig → String × Option GoError
  /-- The call `json.Unmarshal(data, &u1)`: the value of `u1` afterwards and the
  error. -/
  jsonUnmarshal : String → _usageConfig → _usageConfig × Option GoError

/-- The package-level variables this component reads, declared elsewhere in
package `cmd`. -/
structure Globals where
  globalMinimumUsageCheckInterval : Duration
  globalIsEnvUsageCheck : Bool

/-- The method `MarshalJSON` of `usageConfig`. -/
def usageConfig.MarshalJSON (std : Std) (u : usageConfig) : String × Option GoError :=
  std.jsonMarshal { UsageCheckInterval := std.durationString u.UsageCheckInterval }

/-- The error `fmt.Errorf("interval %s is not allowed, minimum required value is
%s", d, min)`; the verb `%s` prints a duration with its `String` method. -/
def intervalNotAllowed (std : Std) (d min : Duration) : GoError :=
  GoError.errorString ("interval " ++ std.durationString d ++
    " is not allowed, minimum required value is " ++ std.durationString min)

/-- The function `parseDuration(dStr)`. -/
def parseDuration (std : Std) (g : Globals) (dStr : String) : Duration × Option GoError :=
  match std.ParseDuration dStr with
  | (d, some err) => (d, some err)
  | (d, none) =>
    if d < g.globalMinimumUsageCheckInterval then
      (d, some (intervalNotAllowed std d g.globalMinimumUsageCheckInterval))
    else
      (d, none)

/-- The method `UnmarshalJSON` of `*usageConfig`: the receiver `u` after the
call, and the error. -/
def usageConfig.UnmarshalJSON (std : Std) (g : Globals) (u : usageConfig) (data : String) :
    usageConfig × Option GoError :=
  match std.jsonUnmarshal data { UsageCheckInterval := "" } with
  | (_, some err) => (u, some err)
  | (u1, none) =>
    if !g.globalIsEnvUsageCheck then
      match parseDuration std g u1.UsageCheckInterval with
      | (_, some err) => (u, some err)
      | (d, none) => ({ UsageCheckInterval := d }, none)
    else
      (u, none)

/-! ### The Go standard library: `time`

The definitions below follow `time.Duration.String` and `time.ParseDuration`
of the Go releases of 2018 (Go 1.10 and 1.11). Unsigned 64-bit values are
natural numbers, with the overflow tests of the Go code written as
comparisons with the largest `int64`. The `float64` arithmetic of
`ParseDuration` is rounding to the nearest value of 53 binary digits, ties to
even, on exact fractions. -/

/-- The largest `int64`, `1<<63 - 1`. -/
def maxInt64 : Nat := 2 ^ 63 - 1

/-- The byte `byte(n%10) + '0'`. -/
def digitChar (n : Nat) : Char := Char.ofNat (n % 10 + 48)

/-- The loop of `fmtInt` for `v > 0`; a `uint64` has at most 20 digits. -/
def fmtIntLoop : Nat → Nat → List Char → List Char
  | 0, _, buf => buf
  | fuel + 1, v, buf =>
    if v > 0 then fmtIntLoop fuel (v / 10) (digitChar (v % 10) :: buf) else buf

/-- The function `fmtInt`: the decimal form of `v` put in front of `buf`. -/
def fmtInt (buf : List Char) (v : Nat) : List Char :=
  if v = 0 then '0' :: buf else fmtIntLoop 20 v buf

/-- The loop of `fmtFrac`. -/
def fmtFracLoop : Nat → Nat → Bool → List Char → List Char × Nat × Bool
  | 0, v, print, buf => (buf, v, print)
  | i + 1, v, print, buf =>
    let digit := v % 10
    let print := print || digit != 0
    fmtFracLoop i (v / 10) print (if print then digitChar digit :: buf else buf)

/-- The function `fmtFrac`: the fraction of `v/10**prec` without trailing zeros
put in front of `buf`, and `v/10**prec`. -/
def fmtFrac (buf : List Char) (v : Nat) (prec : Nat) : List Char × Nat :=
  match fmtFracLoop prec v false buf with
  | (buf, v, print) => (if print then '.' :: buf else buf, v)

/-- The digits and units `String` writes for the magnitude `u` of a duration,
without the sign. -/
def durationBody (u : Nat) : List Char :=
  if u < 1000000000 then
    if u = 0 then ['0', 's']
    else if u < 1000 then
      match fmtFrac ['n', 's'] u 0 with
      | (buf, u) => fmtInt buf u
    else if u < 1000000 then
      match fmtFrac ['µ', 's'] u 3 with
      | (buf, u) => fmtInt buf u
    else
      match fmtFrac ['m', 's'] u 6 with
      | (buf, u) => fmtInt buf u
  else
    match fmtFrac ['s'] u 9 with
    | (buf, u) =>
      let buf := fmtInt buf (u % 60)
      let u := u / 60
      if u > 0 then
        let buf := fmtInt ('m' :: buf) (u % 60)
        let u := u / 60
        if u > 0 then fmtInt ('h' :: buf) u else buf
      else buf

/-- The method `String` of `time.Duration`: `u` is `uint64(d)`, negated (in
`uint64`) when `d` is negative. -/
def Duration.String (d : Duration) : String :=
  let u0 : Nat := (d % 2 ^ 64).toNat
  let neg : Bool := decide (d < 0)
  let u : Nat := if neg then (2 ^ 64 - u0) % 2 ^ 64 else u0
  String.mk (if neg then '-' :: durationBody u else durationBody u)

/-- The function `leadingInt`: the value of the leading digits and the rest of
the input, or `none` on overflow. -/
def leadingInt : List Char → Nat → Option (Nat × List Char)
  | [], x => some (x, [])
  | c :: cs, x =>
    if c < '0' || c > '9' then some (x, c :: cs)
    else if x > maxInt64 / 10 then none
    else if x * 10 + (c.toNat - 48) > maxInt64 then none
    else leadingInt cs (x * 10 + (c.toNat - 48))

/-- The number of binary digits of `n`; a fuel of `n` is enough. -/
def bitLength : Nat → Nat → Nat
  | 0, _ => 0
  | fuel + 1, n => if n = 0 then 0 else bitLength fuel (n / 2) + 1

/-- The fraction `n/d` rounded to the nearest whole number, a tie going to the
even one. -/
def roundHalfEven (n d : Nat) : Nat :=
  if 2 * (n % d) < d then n / d
  else if d < 2 * (n % d) then n / d + 1
  else if n / d % 2 = 0 then n / d else n / d + 1

/-- A finite `float64` that is not negative, as the fraction `num/den` in
lowest terms (`den` is a power of two). -/
structure float64 where
  num : Nat
  den : Nat
  deriving DecidableEq

/-- The fraction `m/2^k` in lowest terms. -/
def float64.reduce (m k : Nat) : float64 :=
  { num := m / Nat.gcd m (2 ^ k), den := 2 ^ k / Nat.gcd m (2 ^ k) }

/-- The `float64` nearest to `n/d` (`d > 0`), a tie going to the even
mantissa: with `E` the exponent of the leading binary digit of `n/d`, the
mantissa is `n/d` in units of `2^(E-52)`, rounded to a whole number of 53
binary digits. The exponent range is taken as unlimited. -/
def float64.round (n d : Nat) : float64 :=
  if n = 0 then { num := 0, den := 1 }
  else
    let a := bitLength n n
    let b := bitLength d d
    let E : Int := if d * 2 ^ (a - b) ≤ n * 2 ^ (b - a) then (a : Int) - b else (a : Int) - b - 1
    let e : Int := E - 52
    if 0 ≤ e then { num := roundHalfEven n (d * 2 ^ e.toNat) * 2 ^ e.toNat, den := 1 }
    else float64.reduce (roundHalfEven (n * 2 ^ (-e).toNat) d) (-e).toNat

/-- The conversion `float64(n)` of a non-negative integer. -/
def float64.ofNat (n : Nat) : float64 := float64.round n 1

/-- The `float64` product `x * y`. -/
def float64.mul (x y : float64) : float64 := float64.round (x.num * y.num) (x.den * y.den)

/-- The `float64` quotient `x / y` (`y` not zero). -/
def float64.div (x y : float64) : float64 := float64.round (x.num * y.den) (x.den * y.num)

/-- The conversion `int64(x)`, which drops the fraction. -/
def float64.toNat (x : float64) : Nat := x.num / x.den

/-- The function `leadingFraction`: the value of the leading digits, the scale
(the `float64` started at 1 and multiplied by 10 for every digit taken) and the
rest of the input; digits after an overflow are skipped. -/
def leadingFraction : List Char → Nat → float64 → Bool → Nat × float64 × List Char
  | [], x, scale, _ => (x, scale, [])
  | c :: cs, x, scale, overflow =>
    if c < '0' || c > '9' then (x, scale, c :: cs)
    else if overflow then leadingFraction cs x scale true
    else if x > maxInt64 / 10 then leadingFraction cs x scale true
    else if x * 10 + (c.toNat - 48) > maxInt64 then leadingFraction cs x scale true
    else leadingFraction cs (x * 10 + (c.toNat - 48)) (scale.mul (float64.ofNat 10)) false

/-- The table `unitMap`. -/
def unitMap (u : String) : Option Nat :=
  if u = "ns" then some 1
  else if u = "us" then some 1000
  else if u = "µs" then some 1000
  else if u = "μs" then some 1000
  else if u = "ms" then some 1000000
  else if u = "s" then some 1000000000
  else if u = "m" then some 60000000000
  else if u = "h" then some 3600000000000
  else none

/-- The test `c == '.' || '0' <= c && c <= '9'`. -/
def startsNumber (c : Char) : Bool :=
  c == '.' || ('0' ≤ c && c ≤ '9')

/-- The error `errors.New("time: invalid duration " + orig)`. -/
def invalidDuration (orig : String) : GoError :=
  GoError.errorString ("time: invalid duration " ++ orig)

/-- The nanoseconds of a fraction,
`int64(float64(f) * (float64(unit) / scale))`. -/
def fractionNanos (f unit : Nat) (scale : float64) : Nat :=
  ((float64.ofNat f).mul ((float64.ofNat unit).div scale)).toNat

/-- The step `Consume (\.[0-9]*)?` of `time.ParseDuration`: the fraction digits
`f`, their scale, the rest of the input, and whether a digit was consumed
after the period. -/
def fractionPart (s1 : List Char) : Nat × float64 × List Char × Bool :=
  match s1 with
  | '.' :: s2 =>
    match leadingFraction s2 0 (float64.ofNat 1) false with
    | (f, scale, s3) => (f, scale, s3, s2.length != s3.length)
  | _ => (0, float64.ofNat 1, s1, false)

/-- The loop `for s != ""` of `time.ParseDuration`, with the sum `d` so far.
Each round consumes at least one character, so a fuel of the input length is
never used up. Without fraction digits (`f = 0`) Go skips the computation of
`fractionNanos`. -/
def parseLoop (orig : String) : Nat → List Char → Nat → Except GoError Nat
  | 0, _, _ => Except.error (invalidDuration orig)
  | _ + 1, [], d => Except.ok d
  | fuel + 1, c :: cs, d =>
    if !startsNumber c then
      Except.error (invalidDuration orig)
    else
      match leadingInt (c :: cs) 0 with
      | none => Except.error (invalidDuration orig)
      | some (v, s1) =>
        let pre := (c :: cs).length != s1.length
        match fractionPart s1 with
        | (f, scale, s3, post) =>
          if !pre && !post then
            Except.error (invalidDuration orig)
          else
            match s3.span (fun c => !startsNumber c) with
            | (u, s4) =>
              if u.isEmpty then
                Except.error (GoError.errorString ("time: missing unit in duration " ++ orig))
              else
                match unitMap (String.mk u) with
                | none =>
                  Except.error (GoError.errorString
                    ("time: unknown unit " ++ String.mk u ++ " in duration " ++ orig))
                | some unit =>
                  if v > maxInt64 / unit then
                    Except.error (invalidDuration orig)
                  else
                    let v1 := if f > 0 then v * unit + fractionNanos f unit scale else v * unit
                    if v1 > maxInt64 then
                      Except.error (invalidDuration orig)
                    else if d + v1 > maxInt64 then
                      Except.error (invalidDuration orig)
                    else parseLoop orig fuel s4 (d + v1)

/-- The step `Consume [-+]?` of `time.ParseDuration`: whether the sign is a
minus, and the input after the sign. -/
def consumeSign (s : List Char) : Bool × List Char :=
  match s with
  | '-' :: rest => (true, rest)
  | '+' :: rest => (false, rest)
  | rest => (false, rest)

/-- The function `time.ParseDuration`. -/
def ParseDuration (s : String) : Duration × Option GoError :=
  match consumeSign s.data with
  | (neg, body) =>
    if body = ['0'] then (0, none)
    else if body = [] then (0, some (invalidDuration s))
    else
      match parseLoop s body.length body 0 with
      | Except.error e => (0, some e)
      | Except.ok d => (if neg then -(d : Int) else (d : Int), none)

/-! ### The Go standard library: `encoding/json`

What `json.Marshal` and `json.Unmarshal` do for the type `_usageConfig`: a
struct with one string field named `interval`. -/

/-- A parsed JSON value, as far as decoding into `_usageConfig` looks at it. -/
inductive JVal where
  | null
  | bool (b : Bool)
  | number
  | str (s : List Char)
  | arr (items : List JVal)
  | obj (members : List (List Char × JVal))

/-- A hexadecimal digit, lower case. -/
def hexChar (n : Nat) : Char :=
  if n % 16 < 10 then Char.ofNat (n % 16 + 48) else Char.ofNat (n % 16 + 87)

/-- The escaping of string contents by `json.Marshal`. -/
def jsonEscape : List Char → List Char
  | [] => []
  | c :: cs =>
    if c = '"' then '\\' :: '"' :: jsonEscape cs
    else if c = '\\' then '\\' :: '\\' :: jsonEscape cs
    else if c = '\n' then '\\' :: 'n' :: jsonEscape cs
    else if c = '\r' then '\\' :: 'r' :: jsonEscape cs
    else if c = '\t' then '\\' :: 't' :: jsonEscape cs
    else if c.toNat < 32 || c = '<' || c = '>' || c = '&' then
      '\\' :: 'u' :: '0' :: '0' :: hexChar (c.toNat / 16) :: hexChar c.toNat :: jsonEscape cs
    else if c.toNat = 0x2028 then '\\' :: 'u' :: '2' :: '0' :: '2' :: '8' :: jsonEscape cs
    else if c.toNat = 0x2029 then '\\' :: 'u' :: '2' :: '0' :: '2' :: '9' :: jsonEscape cs
    else c :: jsonEscape cs

/-- The call `json.Marshal(v)` for `v` of type `_usageConfig`: an object with
the one member `interval`; it has no failure case. -/
def jsonMarshalInterval (v : _usageConfig) : String × Option GoError :=
  (String.mk ("\x7b\"interval\":\"".data ++ jsonEscape v.UsageCheckInterval.data ++
    "\"\x7d".data), none)

/-- JSON white space. -/
def isSpace (c : Char) : Bool :=
  c == ' ' || c == '\t' || c == '\r' || c == '\n'

/-- The input without its leading white space. -/
def skipSpace : List Char → List Char
  | [] => []
  | c :: cs => if isSpace c then skipSpace cs else c :: cs

/-- The value of a hexadecimal digit. -/
def hexVal (c : Char) : Option Nat :=
  if '0' ≤ c && c ≤ '9' then some (c.toNat - 48)
  else if 'a' ≤ c && c ≤ 'f' then some (c.toNat - 87)
  else if 'A' ≤ c && c ≤ 'F' then some (c.toNat - 55)
  else none

/-- Four hexadecimal digits: their value and the input after them. -/
def getu4 : List Char → Option (Nat × List Char)
  | a :: b :: c :: d :: rest =>
    match hexVal a, hexVal b, hexVal c, hexVal d with
    | some x, some y, some z, some w => some (((x * 16 + y) * 16 + z) * 16 + w, rest)
    | _, _, _, _ => none
  | _ => none

/-- The body of a JSON string after its opening quote: the decoded text and the
input after the closing quote. A surrogate escape without its partner decodes
to U+FFFD. -/
def scanString : Nat → List Char → List Char → Option (List Char × List Char)
  | 0, _, _ => none
  | _ + 1, [], _ => none
  | fuel + 1, c :: cs, acc =>
    if c = '"' then some (acc.reverse, cs)
    else if c = '\\' then
      match cs with
      | [] => none
      | e :: rest =>
        if e = '"' then scanString fuel rest ('"' :: acc)
        else if e = '\\' then scanString fuel rest ('\\' :: acc)
        else if e = '/' then scanString fuel rest ('/' :: acc)
        else if e = 'b' then scanString fuel rest (Char.ofNat 8 :: acc)
        else if e = 'f' then scanString fuel rest (Char.ofNat 12 :: acc)
        else if e = 'n' then scanString fuel rest ('\n' :: acc)
        else if e = 'r' then scanString fuel rest ('\r' :: acc)
        else if e = 't' then scanString fuel rest ('\t' :: acc)
        else if e = 'u' then
          match getu4 rest with
          | none => none
          | some (rr, rest1) =>
            if 0xD800 ≤ rr && rr < 0xE000 then
              match rest1 with
              | '\\' :: 'u' :: rest2 =>
                match getu4 rest2 with
                | some (rr1, rest3) =>
                  if rr < 0xDC00 && 0xDC00 ≤ rr1 && rr1 < 0xE000 then
                    scanString fuel rest3
                      (Char.ofNat ((rr - 0xD800) * 1024 + (rr1 - 0xDC00) + 0x10000) :: acc)
                  else scanString fuel rest1 (Char.ofNat 0xFFFD :: acc)
                | none => scanString fuel rest1 (Char.ofNat 0xFFFD :: acc)
              | _ => scanString fuel rest1 (Char.ofNat 0xFFFD :: acc)
            else scanString fuel rest1 (Char.ofNat rr :: acc)
        else none
    else if c.toNat < 32 then none
    else scanString fuel cs (c :: acc)

/-- A decimal digit. -/
def isDigit (c : Char) : Bool := '0' ≤ c && c ≤ '9'

/-- The input without its leading digits. -/
def skipDigits : List Char → List Char
  | [] => []
  | c :: cs => if isDigit c then skipDigits cs else c :: cs

/-- One or more digits: the input after them. -/
def scanDigits1 : List Char → Option (List Char)
  | c :: cs => if isDigit c then some (skipDigits cs) else none
  | [] => none

/-- An optional exponent of a JSON number: the input after it. -/
def scanExponent : List Char → Option (List Char)
  | c :: cs =>
    if c = 'e' || c = 'E' then
      match cs with
      | s :: cs1 => if s = '+' || s = '-' then scanDigits1 cs1 else scanDigits1 (s :: cs1)
      | [] => none
    else some (c :: cs)
  | [] => some []

/-- An optional fraction and exponent of a JSON number: the input after them. -/
def scanFraction : List Char → Option (List Char)
  | c :: cs =>
    if c = '.' then (scanDigits1 cs).bind scanExponent
    else scanExponent (c :: cs)
  | [] => some []

/-- A JSON number: the input after it. -/
def scanNumber (s : List Char) : Option (List Char) :=
  let body := match s with
    | '-' :: rest => rest
    | _ => s
  match body with
  | c :: cs =>
    if c = '0' then scanFraction cs
    else if isDigit c then scanFraction (skipDigits cs)
    else none
  | [] => none

mutual
/-- A JSON value at the head of the input (no leading white space): the value
and the input after it. The fuel bounds the nesting and the number of members;
the input length is enough. -/
def scanValue : Nat → List Char → Option (JVal × List Char)
  | 0, _ => none
  | _ + 1, [] => none
  | fuel + 1, c :: cs =>
    if c = '\x7b' then
      match skipSpace cs with
      | '\x7d' :: rest => some (JVal.obj [], rest)
      | rest => scanMembers fuel rest []
    else if c = '[' then
      match skipSpace cs with
      | ']' :: rest => some (JVal.arr [], rest)
      | rest => scanElements fuel rest []
    else if c = '"' then
      match scanString cs.length cs [] with
      | some (s, rest) => some (JVal.str s, rest)
      | none => none
    else if c = 't' then
      match cs with
      | 'r' :: 'u' :: 'e' :: rest => some (JVal.bool true, rest)
      | _ => none
    else if c = 'f' then
      match cs with
      | 'a' :: 'l' :: 's' :: 'e' :: rest => some (JVal.bool false, rest)
      | _ => none
    else if c = 'n' then
      match cs with
      | 'u' :: 'l' :: 'l' :: rest => some (JVal.null, rest)
      | _ => none
    else
      match scanNumber (c :: cs) with
      | some rest => some (JVal.number, rest)
      | none => none
/-- The members of a JSON object from the first key on, up to the closing
brace. -/
def scanMembers : Nat → List Char → List (List Char × JVal) → Option (JVal × List Char)
  | 0, _, _ => none
  | fuel + 1, s, acc =>
    match s with
    | '"' :: cs =>
      match scanString cs.length cs [] with
      | none => none
      | some (key, rest) =>
        match skipSpace rest with
        | ':' :: rest1 =>
          match scanValue fuel (skipSpace rest1) with
          | none => none
          | some (v, rest2) =>
            match skipSpace rest2 with
            | ',' :: rest3 => scanMembers fuel (skipSpace rest3) (acc ++ [(key, v)])
            | '\x7d' :: rest3 => some (JVal.obj (acc ++ [(key, v)]), rest3)
            | _ => none
        | _ => none
    | _ => none
/-- The elements of a JSON array from the first one on, up to the closing
bracket. -/
def scanElements : Nat → List Char → List JVal → Option (JVal × List Char)
  | 0, _, _ => none
  | fuel + 1, s, acc =>
    match scanValue fuel s with
    | none => none
    | some (v, rest) =>
      match skipSpace rest with
      | ',' :: rest1 => scanElements fuel (skipSpace rest1) (acc ++ [v])
      | ']' :: rest1 => some (JVal.arr (acc ++ [v]), rest1)
      | _ => none
end

/-- The whole input as one JSON value, or `none` for a syntax error. -/
def parseJSON (data : String) : Option JVal :=
  match scanValue (data.length + 1) (skipSpace data.data) with
  | some (v, rest) => if skipSpace rest = [] then some v else none
  | none => none

/-- Whether an object key selects the field `interval`: the match ignores the
case of ASCII letters. -/
def isIntervalKey (key : List Char) : Bool :=
  key.map Char.toUpper == "INTERVAL".data

/-- The members of an object stored into `_usageConfig`, first to last: a string
value of `interval` is stored, `null` leaves the field alone, any other value
is a type error (the first one is kept) and decoding goes on. -/
def decodeMembers : List (List Char × JVal) → _usageConfig → Option GoError →
    _usageConfig × Option GoError
  | [], cur, err => (cur, err)
  | (key, v) :: rest, cur, err =>
    if isIntervalKey key then
      match v with
      | JVal.str s => decodeMembers rest { UsageCheckInterval := String.mk s } err
      | JVal.null => decodeMembers rest cur err
      | _ => decodeMembers rest cur (err.orElse fun _ => some GoError.jsonUnmarshalTypeError)
    else decodeMembers rest cur err

/-- The call `json.Unmarshal(data, &u1)` for `u1` of type `_usageConfig`. -/
def jsonUnmarshalInterval (data : String) (u1 : _usageConfig) :
    _usageConfig × Option GoError :=
  match parseJSON data with
  | none => (u1, some GoError.jsonSyntaxError)
  | some JVal.null => (u1, none)
  | some (JVal.obj members) => decodeMembers members u1 none
  | some _ => (u1, some GoError.jsonUnmarshalTypeError)

/-! ### Reading back what `String` wrote -/

/-- The value of a run of decimal digits read after the value `x`. -/
def decimalValue (x : Nat) (ds : List Char) : Nat :=
  ds.foldl (fun a c => a * 10 + (c.toNat - 48)) x

/-- A list that is empty or starts with a character that is no digit. -/
def noDigitAhead (rest : List Char) : Prop :=
  ∀ c, rest.head? = some c → isDigit c = false

/-- A list that is empty or starts with a digit or a period. -/
def numberAhead (rest : List Char) : Prop :=
  ∀ c, rest.head? = some c → startsNumber c = true

/-- An error of package `time`: its message starts with `time: `. -/
def isTimeError (e : GoError) : Prop :=
  ∃ m : String, e = GoError.errorString ("time: " ++ m)

/-- The Go standard library as modelled above. -/
def goStd : Std where
  ParseDuration := ParseDuration
  durationString := Duration.String
  jsonMarshal := jsonMarshalInterval
  jsonUnmarshal := jsonUnmarshalInterval

/-- The globals with minimum interval `min` and the environment flag `env`. -/
def globalsWith (min : Duration) (env : Bool) : Globals where
  globalMinimumUsageCheckInterval := min
  globalIsEnvUsageCheck := env

/-! # Theorems -/

/-! ## The two descriptions of the calls agree -/

theorem logVisit_apply {κ σ ε : Type} (usageFn : usageFunc κ σ ε) (ctx : κ) (p : String)
    (s : σ) (l : List (Event ε)) :
    logVisit usageFn ctx p (s, l) =
      ((usageFn ctx p s).1, (usageFn ctx p s).2, l ++ [Event.visit p (usageFn ctx p s).1]) :=
  rfl

theorem logCollab_readDir {σ ε : Type} (c : Collab σ ε) (p : String) (s : σ)
    (l : List (Event ε)) :
    (logCollab c).readDir p (s, l) =
      ((c.readDir p s).1, (c.readDir p s).2, l ++ [Event.list p (c.readDir p s).1]) :=
  rfl

theorem logCollab_hasSuffix {σ ε : Type} (c : Collab σ ε) :
    (logCollab c).hasSuffix = c.hasSuffix :=
  rfl

theorem logCollab_slashSeparator {σ ε : Type} (c : Collab σ ε) :
    (logCollab c).slashSeparator = c.slashSeparator :=
  rfl

theorem logCollab_pathJoin {σ ε : Type} (c : Collab σ ε) :
    (logCollab c).pathJoin = c.pathJoin :=
  rfl

theorem runEntries_logged {σ ε : Type} (c : Collab σ ε)
    (recur : String → σ → Option (Option ε) × σ × List (Event ε))
    (lrecur : String → σ × List (Event ε) → Option (Option ε) × σ × List (Event ε))
    (hrec : ∀ p s l, lrecur p (s, l) = ((recur p s).1, (recur p s).2.1, l ++ (recur p s).2.2))
    (path : String) (entries : List String) (s : σ) (l : List (Event ε)) :
    walkEntries (logCollab c) lrecur path entries (s, l) =
      ((runEntries c recur path entries s).1, (runEntries c recur path entries s).2.1,
        l ++ (runEntries c recur path entries s).2.2) := by
  induction entries generalizing s l with
  | nil => simp [walkEntries, runEntries]
  | cons entry rest ih =>
    simp only [walkEntries, runEntries, logCollab_pathJoin, hrec]
    rcases h : recur (c.pathJoin path entry) s with ⟨r, s1, evs1⟩
    rcases r with _ | _ | err
    · simp
    · simp only []
      rw [ih s1 (l ++ evs1)]
      simp
    · simp

theorem walk_logged {κ σ ε : Type} (c : Collab σ ε) (ctx : κ) (usageFn : usageFunc κ σ ε)
    (fuel : Nat) (path : String) (s : σ) (l : List (Event ε)) :
    walk (logCollab c) ctx (logVisit usageFn) fuel path (s, l) =
      ((run c ctx usageFn fuel path s).1, (run c ctx usageFn fuel path s).2.1,
        l ++ (run c ctx usageFn fuel path s).2.2) := by
  induction fuel generalizing path s l with
  | zero => simp [walk, run]
  | succ fuel ih =>
    simp only [walk, run, logVisit_apply, logCollab_hasSuffix, logCollab_slashSeparator]
    rcases h1 : usageFn ctx path s with ⟨r1, s1⟩
    rcases r1 with _ | err
    · simp only []
      by_cases hs : c.hasSuffix path c.slashSeparator = true
      · simp only [hs, Bool.not_true, Bool.false_eq_true, if_false, logCollab_readDir]
        rcases h2 : c.readDir path s1 with ⟨r2, s2⟩
        rcases r2 with e | entries
        · simp only [logVisit_apply]
          rcases h3 : usageFn ctx path s2 with ⟨r3, s3⟩
          simp
        · simp only []
          rw [runEntries_logged c (run c ctx usageFn fuel)
            (walk (logCollab c) ctx (logVisit usageFn) fuel) (fun p s l => ih p s l)]
          simp
      · simp [hs]
    · simp

theorem trace_eq_run {κ σ ε : Type} (c : Collab σ ε) (ctx : κ) (usageFn : usageFunc κ σ ε)
    (fuel : Nat) (path : String) (s : σ) :
    trace c ctx usageFn fuel path s = (run c ctx usageFn fuel path s).2.2 := by
  simp [trace, walk_logged]

theorem runEntries_erase {σ ε : Type} (c : Collab σ ε)
    (recur : String → σ → Option (Option ε) × σ × List (Event ε))
    (wrecur : String → σ → Option (Option ε) × σ)
    (hrec : ∀ p s, wrecur p s = ((recur p s).1, (recur p s).2.1))
    (path : String) (entries : List String) (s : σ) :
    walkEntries c wrecur path entries s =
      ((runEntries c recur path entries s).1, (runEntries c recur path entries s).2.1) := by
  induction entries generalizing s with
  | nil => simp [walkEntries, runEntries]
  | cons entry rest ih =>
    simp only [walkEntries, runEntries, hrec]
    rcases h : recur (c.pathJoin path entry) s with ⟨r, s1, evs1⟩
    rcases r with _ | _ | err
    · simp
    · simp only []
      rw [ih s1]
    · simp

theorem walk_eq_run {κ σ ε : Type} (c : Collab σ ε) (ctx : κ) (usageFn : usageFunc κ σ ε)
    (fuel : Nat) (path : String) (s : σ) :
    walk c ctx usageFn fuel path s =
      ((run c ctx usageFn fuel path s).1, (run c ctx usageFn fuel path s).2.1) := by
  induction fuel generalizing path s with
  | zero => simp [walk, run]
  | succ fuel ih =>
    simp only [walk, run]
    rcases h1 : usageFn ctx path s with ⟨r1, s1⟩
    rcases r1 with _ | err
    · simp only []
      by_cases hs : c.hasSuffix path c.slashSeparator = true
      · simp only [hs, Bool.not_true, Bool.false_eq_true, if_false]
        rcases h2 : c.readDir path s1 with ⟨r2, s2⟩
        rcases r2 with e | entries
        · simp
        · simp only []
          rw [runEntries_erase c (run c ctx usageFn fuel) (walk c ctx usageFn fuel)
            (fun p s => ih p s) path entries s2]
      · simp [hs]
    · simp

/-! ## Walking a described tree -/

theorem visits_append {ε : Type} (xs ys : List (Event ε)) :
    visits (xs ++ ys) = visits xs ++ visits ys := by
  induction xs with
  | nil => rfl
  | cons x xs ih => cases x <;> simp [visits, ih]

theorem listings_append {ε : Type} (xs ys : List (Event ε)) :
    listings (xs ++ ys) = listings xs ++ listings ys := by
  induction xs with
  | nil => rfl
  | cons x xs ih => cases x <;> simp [listings, ih]

theorem runEntries_tree {σ ε : Type} (c : Collab σ ε)
    (recur : String → σ → Option (Option ε) × σ × List (Event ε)) (fuel : Nat)
    (hrec : ∀ t s, Describes c t → t.depth ≤ fuel →
      (recur t.path s).1 = some none ∧ visits (recur t.path s).2.2 = t.calls ∧
        listings (recur t.path s).2.2 = t.dirs)
    (path : String) (kids : List Tree) (names : List String) (s : σ)
    (hkids : kids.map Tree.path = names.map (c.pathJoin path))
    (hsub : ∀ k, k ∈ kids → Describes c k) (hdepth : Tree.depthList kids ≤ fuel) :
    (runEntries c recur path names s).1 = some none ∧
      visits (runEntries c recur path names s).2.2 = Tree.callsList kids ∧
      listings (runEntries c recur path names s).2.2 = Tree.dirsList kids := by
  induction kids generalizing names s with
  | nil =>
    cases names with
    | nil => simp [runEntries, visits, listings, Tree.callsList, Tree.dirsList]
    | cons n ns => simp at hkids
  | cons k ks ih =>
    cases names with
    | nil => simp at hkids
    | cons n ns =>
      simp only [List.map_cons, List.cons.injEq] at hkids
      simp only [Tree.depthList, Nat.max_le] at hdepth
      have hk := hrec k s (hsub k (List.mem_cons_self _ _)) hdepth.1
      rw [hkids.1] at hk
      simp only [runEntries]
      rcases h : recur (c.pathJoin path n) s with ⟨r, s1, evs1⟩
      rw [h] at hk
      simp only [] at hk
      obtain ⟨hr, hv, hl⟩ := hk
      subst hr
      have := ih ns s1 hkids.2 (fun k hk => hsub k (List.mem_cons_of_mem _ hk)) hdepth.2
      simp only [visits_append, listings_append, Tree.callsList, Tree.dirsList, hv, hl, this,
        and_self]

theorem run_tree {κ σ ε : Type} (c : Collab σ ε) (ctx : κ) (usageFn : usageFunc κ σ ε)
    (hvisit : ∀ p s, (usageFn ctx p s).1 = none) (fuel : Nat) (t : Tree) (s : σ)
    (ht : Describes c t) (hdepth : t.depth ≤ fuel) :
    (run c ctx usageFn fuel t.path s).1 = some none ∧
      visits (run c ctx usageFn fuel t.path s).2.2 = t.calls ∧
      listings (run c ctx usageFn fuel t.path s).2.2 = t.dirs := by
  induction fuel generalizing t s with
  | zero => cases t <;> simp [Tree.depth] at hdepth
  | succ fuel ih =>
    have hv1 : ∀ p s, usageFn ctx p s = (none, (usageFn ctx p s).2) := by
      intro p s
      rw [← hvisit p s]
    cases ht with
    | file p hfile =>
      simp only [Tree.path, run]
      rw [hv1 p s]
      simp [hfile, visits, listings, Tree.calls, Tree.dirs]
    | dir p kids names hdir hlist hkids hsub =>
      simp only [Tree.path, run]
      rw [hv1 p s]
      simp only [hdir, Bool.not_true, Bool.false_eq_true, if_false]
      have hl := hlist (usageFn ctx p s).2
      rcases h2 : c.readDir p (usageFn ctx p s).2 with ⟨r2, s2⟩
      rw [h2] at hl
      simp only [] at hl
      subst hl
      simp only [Tree.depth, Nat.add_le_add_iff_right] at hdepth
      have := runEntries_tree c (run c ctx usageFn fuel) fuel
        (fun t s ht hd => ih t s ht hd) p kids names s2 hkids hsub hdepth
      simp only [visits, listings, Tree.calls, Tree.dirs, this, and_self]
    | unreadable p hdir hlist =>
      simp only [Tree.path, run]
      rw [hv1 p s]
      simp only [hdir, Bool.not_true, Bool.false_eq_true, if_false]
      obtain ⟨e, he⟩ := hlist (usageFn ctx p s).2
      rcases h2 : c.readDir p (usageFn ctx p s).2 with ⟨r2, s2⟩
      rw [h2] at he
      simp only [] at he
      subst he
      simp only []
      rw [hv1 p s2]
      simp [visits, listings, Tree.calls, Tree.dirs]

mutual
theorem Tree.calls_of_readable : ∀ t : Tree, t.readable = true → t.calls = t.preorder
  | Tree.file _, _ => rfl
  | Tree.dir p kids, h => by
    simp only [Tree.readable] at h
    simp only [Tree.calls, Tree.preorder, Tree.callsList_of_readable kids h]
  | Tree.unreadable _, h => by simp [Tree.readable] at h
theorem Tree.callsList_of_readable :
    ∀ ts : List Tree, Tree.readableList ts = true → Tree.callsList ts = Tree.preorderList ts
  | [], _ => rfl
  | t :: ts, h => by
    simp only [Tree.readableList, Bool.and_eq_true] at h
    simp only [Tree.callsList, Tree.preorderList, Tree.calls_of_readable t h.1,
      Tree.callsList_of_readable ts h.2]
end

mutual
theorem Tree.length_preorder : ∀ t : Tree, t.preorder.length = t.size
  | Tree.file _ => rfl
  | Tree.dir p kids => by
    simp only [Tree.preorder, Tree.size, List.length_cons, Tree.length_preorderList kids]
  | Tree.unreadable _ => rfl
theorem Tree.length_preorderList :
    ∀ ts : List Tree, (Tree.preorderList ts).length = Tree.sizeList ts
  | [] => rfl
  | t :: ts => by
    simp only [Tree.preorderList, Tree.sizeList, List.length_append, Tree.length_preorder t,
      Tree.length_preorderList ts]
end

/-! ## Visitor errors end the walk -/

theorem noFailedVisit_nil {ε : Type} : noFailedVisit ([] : List (Event ε)) := by
  intro p e h
  cases h

theorem noFailedVisit_append {ε : Type} {xs ys : List (Event ε)}
    (hx : noFailedVisit xs) (hy : noFailedVisit ys) : noFailedVisit (xs ++ ys) := by
  intro p e h
  rcases List.mem_append.1 h with h | h
  · exact hx p e h
  · exact hy p e h

theorem noFailedVisit_visit_none {ε : Type} (p : String) :
    noFailedVisit [(Event.visit p none : Event ε)] := by
  intro q e h
  simp at h

theorem noFailedVisit_list {ε : Type} (p : String) (r : Except ε (List String)) :
    noFailedVisit [(Event.list p r : Event ε)] := by
  intro q e h
  simp at h

theorem ErrorLast_append {ε : Type} {r : Option (Option ε)} {xs ys : List (Event ε)}
    (hx : noFailedVisit xs) (hy : ErrorLast r ys) : ErrorLast r (xs ++ ys) := by
  rcases r with _ | _ | e
  · exact noFailedVisit_append hx hy
  · exact noFailedVisit_append hx hy
  · obtain ⟨pre, p, hpre, hclean⟩ := hy
    exact ⟨xs ++ pre, p, by rw [hpre, List.append_assoc], noFailedVisit_append hx hclean⟩

theorem ErrorLast_visit {ε : Type} (p : String) (r : Option ε) :
    ErrorLast (some r) [Event.visit p r] := by
  cases r with
  | none => exact noFailedVisit_visit_none p
  | some e => exact ⟨[], p, rfl, noFailedVisit_nil⟩

theorem runEntries_errorLast {σ ε : Type} (c : Collab σ ε)
    (recur : String → σ → Option (Option ε) × σ × List (Event ε))
    (hrec : ∀ p s, ErrorLast (recur p s).1 (recur p s).2.2)
    (path : String) (entries : List String) (s : σ) :
    ErrorLast (runEntries c recur path entries s).1 (runEntries c recur path entries s).2.2 := by
  induction entries generalizing s with
  | nil => exact noFailedVisit_nil
  | cons entry rest ih =>
    simp only [runEntries]
    have h1 := hrec (c.pathJoin path entry) s
    rcases h : recur (c.pathJoin path entry) s with ⟨r, s1, evs1⟩
    rw [h] at h1
    rcases r with _ | _ | err
    · exact h1
    · exact ErrorLast_append h1 (ih s1)
    · exact h1

theorem run_errorLast {κ σ ε : Type} (c : Collab σ ε) (ctx : κ) (usageFn : usageFunc κ σ ε)
    (fuel : Nat) (path : String) (s : σ) :
    ErrorLast (run c ctx usageFn fuel path s).1 (run c ctx usageFn fuel path s).2.2 := by
  induction fuel generalizing path s with
  | zero => exact noFailedVisit_nil
  | succ fuel ih =>
    simp only [run]
    rcases h1 : usageFn ctx path s with ⟨r1, s1⟩
    rcases r1 with _ | err
    · simp only []
      by_cases hs : c.hasSuffix path c.slashSeparator = true
      · simp only [hs, Bool.not_true, Bool.false_eq_true, if_false]
        rcases h2 : c.readDir path s1 with ⟨r2, s2⟩
        rcases r2 with e | entries
        · simp only []
          refine @ErrorLast_append ε _
            [Event.visit path none, Event.list path (Except.error e)] _
            (noFailedVisit_append (noFailedVisit_visit_none path) (noFailedVisit_list path _))
            (ErrorLast_visit path _)
        · simp only []
          refine @ErrorLast_append ε _
            [Event.visit path none, Event.list path (Except.ok entries)] _
            (noFailedVisit_append (noFailedVisit_visit_none path) (noFailedVisit_list path _))
            (runEntries_errorLast c _ (fun p s => ih p s) path entries s2)
      · simp only [hs, Bool.not_false, if_true]
        exact noFailedVisit_visit_none path
    · exact ErrorLast_visit path (some err)

/-- In a log with the shape `ErrorLast`, a visitor call that returned an error
is the last call, and its error is the outcome. -/
theorem ErrorLast_split {ε : Type} {r : Option (Option ε)} {evs : List (Event ε)}
    (h : ErrorLast r evs) (pre post : List (Event ε)) (p : String) (e : ε)
    (hevs : evs = pre ++ Event.visit p (some e) :: post) :
    post = [] ∧ r = some (some e) ∧ noFailedVisit pre := by
  have hmem : Event.visit p (some e) ∈ evs := by
    rw [hevs]
    simp
  rcases r with _ | _ | e0
  · exact absurd hmem (h p e)
  · exact absurd hmem (h p e)
  · obtain ⟨pre0, p0, hpre0, hclean⟩ := h
    rcases List.eq_nil_or_concat post with hpost | ⟨post1, z, hpost⟩
    · subst hpost
      rw [hpre0] at hevs
      have := List.append_inj' hevs rfl
      simp only [List.cons.injEq, Event.visit.injEq, Option.some.injEq, and_true] at this
      obtain ⟨h1, _, h3⟩ := this
      subst h1 h3
      exact ⟨rfl, rfl, hclean⟩
    · exfalso
      rw [hpre0, hpost, List.concat_eq_append, ← List.cons_append, ← List.append_assoc] at hevs
      have := (List.append_inj' hevs rfl).1
      apply hclean p e
      rw [this]
      simp

/-! ## Comparison with the run whose visitor errors are suppressed -/

theorem Quieted_append {σ ε : Type} (xs : List (Event ε))
    {r q : Option (Option ε)} {s t : σ} {evs qevs : List (Event ε)}
    (h : Quieted (r, s, evs) (q, t, qevs)) :
    Quieted (r, s, xs ++ evs) (q, t, xs ++ qevs) := by
  rcases r with _ | _ | e
  · simp only [Quieted, Prod.mk.injEq] at h ⊢
    obtain ⟨h1, h2, h3⟩ := h
    exact ⟨h1, h2, by rw [h3]⟩
  · simp only [Quieted, Prod.mk.injEq] at h ⊢
    obtain ⟨h1, h2, h3⟩ := h
    exact ⟨h1, h2, by rw [h3]⟩
  · simp only [Quieted] at h ⊢
    obtain ⟨pre, p, post, h1, h2⟩ := h
    exact ⟨xs ++ pre, p, post, by rw [h1, List.append_assoc], by rw [h2, List.append_assoc]⟩

theorem runEntries_quieted {σ ε : Type} (c : Collab σ ε)
    (recur qrecur : String → σ → Option (Option ε) × σ × List (Event ε))
    (hrec : ∀ p s, Quieted (recur p s) (qrecur p s))
    (path : String) (entries : List String) (s : σ) :
    Quieted (runEntries c recur path entries s) (runEntries c qrecur path entries s) := by
  induction entries generalizing s with
  | nil => simp [runEntries, Quieted]
  | cons entry rest ih =>
    simp only [runEntries]
    have h1 := hrec (c.pathJoin path entry) s
    rcases h : recur (c.pathJoin path entry) s with ⟨r, s1, evs1⟩
    rcases hq : qrecur (c.pathJoin path entry) s with ⟨q, t1, qevs1⟩
    rw [h, hq] at h1
    rcases r with _ | _ | err
    · simp only [Quieted, Prod.mk.injEq] at h1
      obtain ⟨rfl, rfl, rfl⟩ := h1
      simp [Quieted]
    · simp only [Quieted, Prod.mk.injEq] at h1
      obtain ⟨rfl, rfl, rfl⟩ := h1
      simp only []
      exact Quieted_append qevs1 (ih t1)
    · simp only [Quieted] at h1
      obtain ⟨pre, p, post, hp1, hp2⟩ := h1
      rcases q with _ | _ | qerr
      · exact ⟨pre, p, post, hp1, hp2⟩
      · simp only [Quieted]
        exact ⟨pre, p, post ++ (runEntries c qrecur path rest t1).2.2, hp1, by simp [hp2]⟩
      · exact ⟨pre, p, post, hp1, hp2⟩

theorem run_quiet_head {κ σ ε : Type} (c : Collab σ ε) (ctx : κ) (usageFn : usageFunc κ σ ε)
    (fuel : Nat) (path : String) (s : σ) :
    ∃ post, (run c ctx (quiet usageFn) (fuel + 1) path s).2.2 =
      Event.visit path none :: post := by
  simp only [run, quiet]
  by_cases hs : c.hasSuffix path c.slashSeparator = true
  · simp only [hs, Bool.not_true, Bool.false_eq_true, if_false]
    rcases h2 : c.readDir path (usageFn ctx path s).2 with ⟨r2, s2⟩
    rcases r2 with e | entries
    · exact ⟨_, rfl⟩
    · exact ⟨_, rfl⟩
  · simp only [hs, Bool.not_false, if_true]
    exact ⟨_, rfl⟩

theorem run_quieted {κ σ ε : Type} (c : Collab σ ε) (ctx : κ) (usageFn : usageFunc κ σ ε)
    (fuel : Nat) (path : String) (s : σ) :
    Quieted (run c ctx usageFn fuel path s) (run c ctx (quiet usageFn) fuel path s) := by
  induction fuel generalizing path s with
  | zero => simp [run, Quieted]
  | succ fuel ih =>
    rcases h1 : usageFn ctx path s with ⟨r1, s1⟩
    rcases r1 with _ | err
    · simp only [run, quiet, h1]
      by_cases hs : c.hasSuffix path c.slashSeparator = true
      · simp only [hs, Bool.not_true, Bool.false_eq_true, if_false]
        rcases h2 : c.readDir path s1 with ⟨r2, s2⟩
        rcases r2 with e | entries
        · simp only []
          rcases h3 : usageFn ctx path s2 with ⟨r3, s3⟩
          rcases r3 with _ | e3
          · simp [Quieted]
          · exact ⟨[Event.visit path none, Event.list path (Except.error e)], path, [],
              rfl, rfl⟩
        · simp only []
          exact Quieted_append
            [Event.visit path none, Event.list path (Except.ok entries)]
            (runEntries_quieted c _ _ (fun p s => ih p s) path entries s2)
      · simp [hs, Quieted]
    · obtain ⟨post, hpost⟩ := run_quiet_head c ctx usageFn fuel path s
      have hR : run c ctx usageFn (fuel + 1) path s =
          (some (some err), s1, [Event.visit path (some err)]) := by
        simp only [run, h1]
      rw [hR]
      exact ⟨[], path, post, rfl, hpost⟩

/-! ## Logged visitor calls are calls of the visitor -/

theorem runEntries_visit_sound {κ σ ε : Type} (c : Collab σ ε) (ctx : κ)
    (usageFn : usageFunc κ σ ε)
    (recur : String → σ → Option (Option ε) × σ × List (Event ε))
    (hrec : ∀ p s q r, Event.visit q r ∈ (recur p s).2.2 → ∃ s0, (usageFn ctx q s0).1 = r)
    (path : String) (entries : List String) (s : σ) (q : String) (r : Option ε)
    (h : Event.visit q r ∈ (runEntries c recur path entries s).2.2) :
    ∃ s0, (usageFn ctx q s0).1 = r := by
  induction entries generalizing s with
  | nil => simp [runEntries] at h
  | cons entry rest ih =>
    simp only [runEntries] at h
    have h1 := hrec (c.pathJoin path entry) s q r
    rcases hr : recur (c.pathJoin path entry) s with ⟨o, s1, evs1⟩
    rw [hr] at h h1
    rcases o with _ | _ | err
    · exact h1 h
    · simp only [List.mem_append] at h
      rcases h with h | h
      · exact h1 h
      · exact ih s1 h
    · exact h1 h

theorem run_visit_sound {κ σ ε : Type} (c : Collab σ ε) (ctx : κ) (usageFn : usageFunc κ σ ε)
    (fuel : Nat) (path : String) (s : σ) (q : String) (r : Option ε)
    (h : Event.visit q r ∈ (run c ctx usageFn fuel path s).2.2) :
    ∃ s0, (usageFn ctx q s0).1 = r := by
  induction fuel generalizing path s q r with
  | zero => simp [run] at h
  | succ fuel ih =>
    simp only [run] at h
    rcases h1 : usageFn ctx path s with ⟨r1, s1⟩
    rw [h1] at h
    rcases r1 with _ | err
    · simp only [] at h
      by_cases hs : c.hasSuffix path c.slashSeparator = true
      · simp only [hs, Bool.not_true, Bool.false_eq_true, if_false] at h
        rcases h2 : c.readDir path s1 with ⟨r2, s2⟩
        rw [h2] at h
        rcases r2 with e | entries
        · simp only [List.mem_cons, Event.visit.injEq, List.mem_singleton, List.not_mem_nil,
            or_false, false_or, reduceCtorEq] at h
          rcases h with ⟨rfl, rfl⟩ | ⟨rfl, rfl⟩
          · exact ⟨s, by rw [h1]⟩
          · exact ⟨s2, rfl⟩
        · simp only [List.mem_cons, Event.visit.injEq, reduceCtorEq, false_or] at h
          rcases h with ⟨rfl, rfl⟩ | h
          · exact ⟨s, by rw [h1]⟩
          · exact runEntries_visit_sound c ctx usageFn _ (fun p s q r hq => ih p s q r hq)
              path entries s2 q r h
      · simp only [hs, Bool.not_false, if_true, List.mem_singleton, Event.visit.injEq] at h
        obtain ⟨rfl, rfl⟩ := h
        exact ⟨s, by rw [h1]⟩
    · simp only [List.mem_singleton, Event.visit.injEq] at h
      obtain ⟨rfl, rfl⟩ := h
      exact ⟨s, by rw [h1]⟩

/-! ## Listing calls -/

theorem runEntries_descents {σ ε : Type} (c : Collab σ ε) (isDir : String → Bool)
    (recur : String → σ → Option (Option ε) × σ × List (Event ε))
    (hrec : ∀ p s rest, descents isDir false ((recur p s).2.2 ++ rest) =
      listings (recur p s).2.2 ++ descents isDir false rest)
    (path : String) (entries : List String) (s : σ) (rest : List (Event ε)) :
    descents isDir false ((runEntries c recur path entries s).2.2 ++ rest) =
      listings (runEntries c recur path entries s).2.2 ++ descents isDir false rest := by
  induction entries generalizing s with
  | nil => simp [runEntries, listings]
  | cons entry more ih =>
    simp only [runEntries]
    have h1 := hrec (c.pathJoin path entry) s
    rcases hr : recur (c.pathJoin path entry) s with ⟨o, s1, evs1⟩
    rw [hr] at h1
    simp only [] at h1
    rcases o with _ | _ | err
    · exact h1 rest
    · simp only [List.append_assoc, listings_append]
      rw [h1, ih s1]
    · exact h1 rest

theorem run_descents {κ σ ε : Type} (c : Collab σ ε) (ctx : κ) (usageFn : usageFunc κ σ ε)
    (fuel : Nat) (path : String) (s : σ) (rest : List (Event ε)) :
    descents (fun p => c.hasSuffix p c.slashSeparator) false
        ((run c ctx usageFn fuel path s).2.2 ++ rest) =
      listings (run c ctx usageFn fuel path s).2.2 ++
        descents (fun p => c.hasSuffix p c.slashSeparator) false rest := by
  induction fuel generalizing path s rest with
  | zero => simp [run, listings]
  | succ fuel ih =>
    simp only [run]
    rcases h1 : usageFn ctx path s with ⟨r1, s1⟩
    rcases r1 with _ | err
    · simp only []
      by_cases hs : c.hasSuffix path c.slashSeparator = true
      · simp only [hs, Bool.not_true, Bool.false_eq_true, if_false]
        rcases h2 : c.readDir path s1 with ⟨r2, s2⟩
        rcases r2 with e | entries
        · simp [descents, listings, hs]
        · simp only [List.cons_append, descents, listings, Bool.not_false, Option.isNone_none,
            Bool.and_self, hs, if_true, List.cons.injEq, true_and]
          exact runEntries_descents c _ _ (fun p s rest => ih p s rest) path entries s2 rest
      · simp [descents, listings, hs]
    · simp [descents, listings]

theorem runEntries_listings_suffix {σ ε : Type} (c : Collab σ ε)
    (recur : String → σ → Option (Option ε) × σ × List (Event ε))
    (hrec : ∀ p s q, q ∈ listings (recur p s).2.2 → c.hasSuffix q c.slashSeparator = true)
    (path : String) (entries : List String) (s : σ) (q : String)
    (h : q ∈ listings (runEntries c recur path entries s).2.2) :
    c.hasSuffix q c.slashSeparator = true := by
  induction entries generalizing s with
  | nil => simp [runEntries, listings] at h
  | cons entry more ih =>
    simp only [runEntries] at h
    have h1 := hrec (c.pathJoin path entry) s q
    rcases hr : recur (c.pathJoin path entry) s with ⟨o, s1, evs1⟩
    rw [hr] at h h1
    rcases o with _ | _ | err
    · exact h1 h
    · simp only [listings_append, List.mem_append] at h
      rcases h with h | h
      · exact h1 h
      · exact ih s1 h
    · exact h1 h

theorem run_listings_suffix {κ σ ε : Type} (c : Collab σ ε) (ctx : κ)
    (usageFn : usageFunc κ σ ε) (fuel : Nat) (path : String) (s : σ) (q : String)
    (h : q ∈ listings (run c ctx usageFn fuel path s).2.2) :
    c.hasSuffix q c.slashSeparator = true := by
  induction fuel generalizing path s q with
  | zero => simp [run, listings] at h
  | succ fuel ih =>
    simp only [run] at h
    rcases h1 : usageFn ctx path s with ⟨r1, s1⟩
    rw [h1] at h
    rcases r1 with _ | err
    · simp only [] at h
      by_cases hs : c.hasSuffix path c.slashSeparator = true
      · simp only [hs, Bool.not_true, Bool.false_eq_true, if_false] at h
        rcases h2 : c.readDir path s1 with ⟨r2, s2⟩
        rw [h2] at h
        rcases r2 with e | entries
        · simp only [listings, List.mem_singleton] at h
          rw [h]
          exact hs
        · simp only [listings, List.mem_cons] at h
          rcases h with h | h
          · rw [h]
            exact hs
          · exact runEntries_listings_suffix c _ (fun p s q hq => ih p s q hq) path entries s2 q h
      · simp [hs, listings] at h
    · simp [listings] at h

/-! ## Claims about the walker -/

/-- C1: on a finite directory tree `t` all of whose listings succeed, with a
visitor that never returns an error, `walk` started at the root of `t` with fuel
at least the depth of `t` returns `nil`, and the paths of its visitor calls are
exactly the pre-order of `t` (a directory before its descendants, children in
listing order), one call per node. -/
theorem C1_walk_visits_preorder {κ σ ε : Type} (c : Collab σ ε) (ctx : κ)
    (usageFn : usageFunc κ σ ε) (t : Tree) (fuel : Nat) (s : σ)
    (ht : Describes c t) (hread : t.readable = true)
    (hvisit : ∀ p s, (usageFn ctx p s).1 = none) (hfuel : t.depth ≤ fuel) :
    (walk c ctx usageFn fuel t.path s).1 = some none ∧
      visits (trace c ctx usageFn fuel t.path s) = t.preorder ∧
      (visits (trace c ctx usageFn fuel t.path s)).length = t.size := by
  have h := run_tree c ctx usageFn hvisit fuel t s ht hfuel
  rw [walk_eq_run, trace_eq_run, h.2.1, Tree.calls_of_readable t hread,
    Tree.length_preorder]
  exact ⟨h.1, rfl, rfl⟩

theorem exampleTree_describes : Describes exampleCollab exampleTree := by
  refine Describes.dir "/a/" _ ["b/", "c"] (by decide) (fun _ => rfl) (by decide) ?_
  intro k hk
  simp only [List.mem_cons, List.mem_singleton, List.not_mem_nil, or_false] at hk
  rcases hk with rfl | rfl
  · exact Describes.dir "/a/b/" [] [] (by decide) (fun _ => rfl) (by decide)
      (fun k hk => by simp at hk)
  · exact Describes.file "/a/c" (by decide)

/-- C1, the example of the specification: root `/a/` containing `b/` (empty)
and `c` is visited as `/a/`, `/a/b/`, `/a/c`. -/
theorem C1_walk_visits_preorder_witness :
    Describes exampleCollab exampleTree ∧ exampleTree.readable = true ∧
      (∀ (p : String) (s : Nat), (countUsage () p s).1 = none) ∧ exampleTree.depth ≤ 2 ∧
      (walk exampleCollab () countUsage 2 "/a/" 0).1 = some none ∧
      visits (trace exampleCollab () countUsage 2 "/a/" 0) = ["/a/", "/a/b/", "/a/c"] ∧
      (visits (trace exampleCollab () countUsage 2 "/a/" 0)).length = 3 :=
  ⟨exampleTree_describes, by decide, fun _ _ => rfl, by decide,
    C1_walk_visits_preorder exampleCollab () countUsage exampleTree 2 0
      exampleTree_describes (by decide) (fun _ _ => rfl) (by decide)⟩

/-- C2: in every run of `walk` (any listing behaviour, any visitor, any fuel), a
visitor call that returns an error `e` is the last call of the run, no earlier
visitor call returned an error, and `walk` returns exactly `e`; and a run that
returns an error `e` ends with the visitor call that returned `e`, its calls up
to there being the calls of the run whose visitor errors are suppressed. -/
theorem C2_visitor_error_aborts {κ σ ε : Type} (c : Collab σ ε) (ctx : κ)
    (usageFn : usageFunc κ σ ε) (fuel : Nat) (path : String) (s : σ) :
    (∀ pre post p e,
        trace c ctx usageFn fuel path s = pre ++ Event.visit p (some e) :: post →
        post = [] ∧ (walk c ctx usageFn fuel path s).1 = some (some e) ∧ noFailedVisit pre) ∧
      (∀ e, (walk c ctx usageFn fuel path s).1 = some (some e) →
        ∃ pre p post,
          trace c ctx usageFn fuel path s = pre ++ [Event.visit p (some e)] ∧
            noFailedVisit pre ∧
            trace c ctx (quiet usageFn) fuel path s = pre ++ Event.visit p none :: post) := by
  have hlast := run_errorLast c ctx usageFn fuel path s
  have hquiet := run_quieted c ctx usageFn fuel path s
  simp only [trace_eq_run, walk_eq_run]
  refine ⟨fun pre post p e h => ErrorLast_split hlast pre post p e h, fun e he => ?_⟩
  simp only [Quieted, he] at hquiet
  obtain ⟨pre, p, post, h1, h2⟩ := hquiet
  exact ⟨pre, p, post, h1, (ErrorLast_split hlast pre [] p e h1).2.2, h2⟩

/-- C2, an example: with a visitor that fails on `/a/b/`, the walk of the
example tree calls the visitor on `/a/` and `/a/b/` only and returns that
error; `/a/c` is not visited. -/
theorem C2_visitor_error_aborts_witness :
    trace exampleCollab () (failOn "/a/b/") 2 "/a/" 0 =
        [Event.visit "/a/" none, Event.list "/a/" (Except.ok ["b/", "c"])] ++
          Event.visit "/a/b/" (some "denied") :: [] ∧
      (walk exampleCollab () (failOn "/a/b/") 2 "/a/" 0).1 = some (some "denied") ∧
      visits (trace exampleCollab () (failOn "/a/b/") 2 "/a/" 0) = ["/a/", "/a/b/"] ∧
      visits (trace exampleCollab () (quiet (failOn "/a/b/")) 2 "/a/" 0) =
        ["/a/", "/a/b/", "/a/c"] :=
  ⟨by rfl,
    ((C2_visitor_error_aborts exampleCollab () (failOn "/a/b/") 2 "/a/" 0).1
      [Event.visit "/a/" none, Event.list "/a/" (Except.ok ["b/", "c"])] [] "/a/b/" "denied"
      (by rfl)).2.1,
    by rfl, by rfl⟩

/-- C3: for a path `D` with the separator suffix whose first visitor call
succeeds and whose listing fails, `walk(D)` (with any fuel of at least one)
makes exactly three calls: the visitor on `D`, the listing of `D`, and the
visitor on `D` again; it returns the result of that second visitor call, with
the world state that call leaves. -/
theorem C3_listing_failure_second_visit {κ σ ε : Type} (c : Collab σ ε) (ctx : κ)
    (usageFn : usageFunc κ σ ε) (fuel : Nat) (D : String) (s : σ) (listErr : ε)
    (hdir : c.hasSuffix D c.slashSeparator = true)
    (hfirst : (usageFn ctx D s).1 = none)
    (hlist : (c.readDir D (usageFn ctx D s).2).1 = Except.error listErr) :
    walk c ctx usageFn (fuel + 1) D s =
        (some (usageFn ctx D (c.readDir D (usageFn ctx D s).2).2).1,
          (usageFn ctx D (c.readDir D (usageFn ctx D s).2).2).2) ∧
      trace c ctx usageFn (fuel + 1) D s =
        [Event.visit D none, Event.list D (Except.error listErr),
          Event.visit D (usageFn ctx D (c.readDir D (usageFn ctx D s).2).2).1] := by
  rw [trace_eq_run, walk_eq_run]
  simp only [run]
  rcases h1 : usageFn ctx D s with ⟨r1, s1⟩
  rw [h1] at hfirst hlist
  simp only [] at hfirst hlist
  subst hfirst
  simp only [hdir, Bool.not_true, Bool.false_eq_true, if_false]
  rcases h2 : c.readDir D s1 with ⟨r2, s2⟩
  rw [h2] at hlist
  simp only [] at hlist
  subst hlist
  simp

/-- C3, two examples on the unlistable path `/x/`: a visitor that never fails
is called twice and the walk returns `nil`; a visitor that fails from its
second call on makes the walk return that visitor error, not the listing
error. -/
theorem C3_listing_failure_second_visit_witness :
    exampleCollab.hasSuffix "/x/" exampleCollab.slashSeparator = true ∧
      (countUsage () "/x/" 0).1 = none ∧
      (exampleCollab.readDir "/x/" (countUsage () "/x/" 0).2).1 =
        Except.error "not a directory" ∧
      walk exampleCollab () countUsage 1 "/x/" 0 = (some none, 2) ∧
      trace exampleCollab () countUsage 1 "/x/" 0 =
        [Event.visit "/x/" none, Event.list "/x/" (Except.error "not a directory"),
          Event.visit "/x/" none] ∧
      walk exampleCollab () (failFrom 1) 1 "/x/" 0 = (some (some "quota"), 2) ∧
      trace exampleCollab () (failFrom 1) 1 "/x/" 0 =
        [Event.visit "/x/" none, Event.list "/x/" (Except.error "not a directory"),
          Event.visit "/x/" (some "quota")] :=
  ⟨by decide, rfl, rfl,
    (C3_listing_failure_second_visit exampleCollab () countUsage 0 "/x/" 0
      "not a directory" (by decide) rfl rfl).1,
    (C3_listing_failure_second_visit exampleCollab () countUsage 0 "/x/" 0
      "not a directory" (by decide) rfl rfl).2,
    (C3_listing_failure_second_visit exampleCollab () (failFrom 1) 0 "/x/" 0
      "not a directory" (by decide) rfl rfl).1,
    (C3_listing_failure_second_visit exampleCollab () (failFrom 1) 0 "/x/" 0
      "not a directory" (by decide) rfl rfl).2⟩

/-- C4: listing failures never surface from `walk`. Whenever `walk` returns an
error, that error was returned by a visitor call of the run; with a visitor that
never returns an error `walk` returns no error, whatever the listings do and
whatever the fuel; and on a finite tree with any set of unreadable directories
such a visitor makes `walk` and `getDiskUsage` return `nil` once the fuel
reaches the depth of the tree. -/
theorem C4_listing_failures_never_surface {κ σ ε : Type} (c : Collab σ ε) (ctx : κ)
    (usageFn : usageFunc κ σ ε) (fuel : Nat) (s : σ) :
    (∀ path e, (walk c ctx usageFn fuel path s).1 = some (some e) →
        ∃ p s0, Event.visit p (some e) ∈ trace c ctx usageFn fuel path s ∧
          (usageFn ctx p s0).1 = some e) ∧
      ((∀ p s0, (usageFn ctx p s0).1 = none) →
        (∀ path e, (walk c ctx usageFn fuel path s).1 ≠ some (some e)) ∧
        (∀ t, Describes c t → t.depth ≤ fuel →
          (walk c ctx usageFn fuel t.path s).1 = some none) ∧
        (∀ t root, Describes c t → t.depth ≤ fuel → t.path = root ++ c.slashSeparator →
          (getDiskUsage c ctx root usageFn fuel s).1 = some none)) := by
  have hprov : ∀ path e, (walk c ctx usageFn fuel path s).1 = some (some e) →
      ∃ p s0, Event.visit p (some e) ∈ trace c ctx usageFn fuel path s ∧
        (usageFn ctx p s0).1 = some e := by
    intro path e he
    have hlast := run_errorLast c ctx usageFn fuel path s
    rw [walk_eq_run] at he
    simp only [] at he
    rw [he] at hlast
    obtain ⟨pre, p, h1, _⟩ := hlast
    have hrun : Event.visit p (some e) ∈ (run c ctx usageFn fuel path s).2.2 := by
      rw [h1]
      simp
    have hmem : Event.visit p (some e) ∈ trace c ctx usageFn fuel path s := by
      rw [trace_eq_run]
      exact hrun
    obtain ⟨s0, hs0⟩ := run_visit_sound c ctx usageFn fuel path s p (some e) hrun
    exact ⟨p, s0, hmem, hs0⟩
  refine ⟨hprov, fun hvisit => ⟨?_, ?_, ?_⟩⟩
  · intro path e he
    obtain ⟨p, s0, _, hs0⟩ := hprov path e he
    rw [hvisit p s0] at hs0
    cases hs0
  · intro t ht hd
    rw [walk_eq_run]
    exact (run_tree c ctx usageFn hvisit fuel t s ht hd).1
  · intro t root ht hd hroot
    rw [getDiskUsage, ← hroot, walk_eq_run]
    exact (run_tree c ctx usageFn hvisit fuel t s ht hd).1

theorem flakyTree_describes : Describes flakyCollab flakyTree := by
  refine Describes.dir "/a/" _ ["b/", "c"] (by decide) (fun _ => rfl) (by decide) ?_
  intro k hk
  simp only [List.mem_cons, List.mem_singleton, List.not_mem_nil, or_false] at hk
  rcases hk with rfl | rfl
  · exact Describes.unreadable "/a/b/" (by decide) (fun _ => ⟨"permission denied", rfl⟩)
  · exact Describes.file "/a/c" (by decide)

/-- C4, an example: with `/a/b/` unreadable and a visitor that never fails,
`getDiskUsage` on `/a` returns `nil`, after visiting `/a/b/` twice. -/
theorem C4_listing_failures_never_surface_witness :
    (∀ (p : String) (s0 : Nat), (countUsage () p s0).1 = none) ∧
      Describes flakyCollab flakyTree ∧ flakyTree.depth ≤ 2 ∧
      flakyTree.path = "/a" ++ flakyCollab.slashSeparator ∧
      (getDiskUsage flakyCollab () "/a" countUsage 2 0).1 = some none ∧
      visits (trace flakyCollab () countUsage 2 "/a/" 0) = ["/a/", "/a/b/", "/a/b/", "/a/c"] :=
  ⟨fun _ _ => rfl, flakyTree_describes, by decide, by decide,
    ((C4_listing_failures_never_surface flakyCollab () countUsage 2 0).2
      (fun _ _ => rfl)).2.2 flakyTree "/a" flakyTree_describes (by decide) (by decide),
    by rfl⟩

/-- C5: in every run of `walk`, each listing call is on a path that carries the
separator suffix, and the listing calls are, in order and one for one, the
successful first visitor calls on paths with the suffix (a call right after a
failed listing being the second call on that directory). On a described tree
with a visitor that never fails the listed paths are the directories of the
tree in pre-order, each once. -/
theorem C5_listing_calls {κ σ ε : Type} (c : Collab σ ε) (ctx : κ)
    (usageFn : usageFunc κ σ ε) (fuel : Nat) (path : String) (s : σ) :
    (∀ q, q ∈ listings (trace c ctx usageFn fuel path s) →
        c.hasSuffix q c.slashSeparator = true) ∧
      listings (trace c ctx usageFn fuel path s) =
        descents (fun p => c.hasSuffix p c.slashSeparator) false
          (trace c ctx usageFn fuel path s) ∧
      (∀ t, Describes c t → t.path = path → t.depth ≤ fuel →
        (∀ p s0, (usageFn ctx p s0).1 = none) →
        listings (trace c ctx usageFn fuel path s) = t.dirs) := by
  rw [trace_eq_run]
  refine ⟨fun q hq => run_listings_suffix c ctx usageFn fuel path s q hq, ?_, ?_⟩
  · have h := run_descents c ctx usageFn fuel path s []
    simp only [List.append_nil, descents] at h
    exact h.symm
  · intro t ht hpath hd hvisit
    rw [← hpath]
    exact (run_tree c ctx usageFn hvisit fuel t s ht hd).2.2

/-- C5, the example of the specification: walking `/a/` with children `b/` and
`c` lists `/a/` once and `/a/b/` once, and never lists `/a/c`. -/
theorem C5_listing_calls_witness :
    Describes exampleCollab exampleTree ∧ exampleTree.path = "/a/" ∧
      exampleTree.depth ≤ 2 ∧
      (∀ (p : String) (s0 : Nat), (countUsage () p s0).1 = none) ∧
      listings (trace exampleCollab () countUsage 2 "/a/" 0) = ["/a/", "/a/b/"] ∧
      exampleCollab.hasSuffix "/a/c" exampleCollab.slashSeparator = false :=
  ⟨exampleTree_describes, rfl, by decide, fun _ _ => rfl,
    (C5_listing_calls exampleCollab () countUsage 2 "/a/" 0).2.2 exampleTree
      exampleTree_describes rfl (by decide) (fun _ _ => rfl),
    by decide⟩

/-! ## Errors of the duration parser -/

theorem isTimeError_invalidDuration (orig : String) : isTimeError (invalidDuration orig) :=
  ⟨"invalid duration " ++ orig, by
    rw [invalidDuration, ← String.append_assoc]
    rfl⟩

theorem isTimeError_missingUnit (orig : String) :
    isTimeError (GoError.errorString ("time: missing unit in duration " ++ orig)) :=
  ⟨"missing unit in duration " ++ orig, by
    rw [← String.append_assoc]
    rfl⟩

theorem isTimeError_unknownUnit (u orig : String) :
    isTimeError (GoError.errorString ("time: unknown unit " ++ u ++ " in duration " ++ orig)) :=
  ⟨"unknown unit " ++ u ++ " in duration " ++ orig, by
    rw [← String.append_assoc, ← String.append_assoc, ← String.append_assoc]
    rfl⟩

theorem parseLoop_error (orig : String) (fuel : Nat) (s : List Char) (d : Nat) (e : GoError)
    (h : parseLoop orig fuel s d = Except.error e) : isTimeError e := by
  induction fuel generalizing s d with
  | zero =>
    simp only [parseLoop, Except.error.injEq] at h
    rw [← h]
    exact isTimeError_invalidDuration orig
  | succ fuel ih =>
    cases s with
    | nil => simp [parseLoop] at h
    | cons c cs =>
      simp only [parseLoop] at h
      repeat' split at h
      all_goals first
        | (simp only [Except.error.injEq] at h
           rw [← h]
           first
             | exact isTimeError_invalidDuration orig
             | exact isTimeError_missingUnit orig
             | exact isTimeError_unknownUnit _ orig)
        | exact ih _ _ h

theorem ParseDuration_error (text : String) (d : Duration) (e : GoError)
    (h : ParseDuration text = (d, some e)) : isTimeError e := by
  simp only [ParseDuration] at h
  repeat' split at h
  all_goals first
    | (simp only [Prod.mk.injEq, Option.some.injEq] at h
       rw [← h.2]
       first
         | exact isTimeError_invalidDuration text
         | exact parseLoop_error text _ _ _ _ (by assumption))
    | (simp only [Prod.mk.injEq, Option.some.injEq, reduceCtorEq, and_false] at h)

theorem isTimeError_ne_intervalNotAllowed (std : Std) (e : GoError) (he : isTimeError e)
    (d min : Duration) : e ≠ intervalNotAllowed std d min := by
  obtain ⟨m, rfl⟩ := he
  intro h
  simp only [intervalNotAllowed, GoError.errorString.injEq] at h
  have hdata := congrArg String.data h
  have h1 : "time: ".data = 't' :: "ime: ".data := rfl
  have h2 : "interval ".data = 'i' :: "nterval ".data := rfl
  simp only [String.data_append, h1, h2, List.cons_append, List.cons.injEq] at hdata
  exact absurd hdata.1 (by decide)

/-! ## The JSON encoding of a string decodes to that string -/

theorem hexVal_hexChar (n : Nat) : hexVal (hexChar n) = some (n % 16) := by
  have h : ∀ k, k < 16 → hexVal (hexChar k) = some (k % 16) := by decide
  have hk := h (n % 16) (Nat.mod_lt _ (by decide))
  have he : hexChar (n % 16) = hexChar n := by simp [hexChar]
  rw [he] at hk
  simpa using hk

theorem getu4_hexChar (n : Nat) (rest : List Char) :
    getu4 ('0' :: '0' :: hexChar (n / 16) :: hexChar n :: rest) = some (n % 256, rest) := by
  have h0 : hexVal '0' = some 0 := by decide
  simp only [getu4, hexVal_hexChar, h0, Option.some.injEq, Prod.mk.injEq, and_true]
  omega

theorem scanString_jsonEscape (cs : List Char) (acc tail : List Char) (fuel : Nat)
    (hfuel : (jsonEscape cs).length < fuel) :
    scanString fuel (jsonEscape cs ++ '"' :: tail) acc = some (acc.reverse ++ cs, tail) := by
  induction cs generalizing acc fuel with
  | nil =>
    cases fuel with
    | zero => simp at hfuel
    | succ fuel => simp [jsonEscape, scanString]
  | cons c cs ih =>
    cases fuel with
    | zero => simp at hfuel
    | succ fuel =>
      by_cases h1 : c = '"'
      · subst h1
        have hf : (jsonEscape cs).length < fuel := by
          simp [jsonEscape] at hfuel
          omega
        simp [jsonEscape, scanString, ih _ _ hf]
      · by_cases h2 : c = '\\'
        · subst h2
          have hf : (jsonEscape cs).length < fuel := by
            simp [jsonEscape] at hfuel
            omega
          simp [jsonEscape, scanString, ih _ _ hf]
        · by_cases h3 : c = '\n'
          · subst h3
            have hf : (jsonEscape cs).length < fuel := by
              simp [jsonEscape] at hfuel
              omega
            simp [jsonEscape, scanString, ih _ _ hf]
          · by_cases h4 : c = '\r'
            · subst h4
              have hf : (jsonEscape cs).length < fuel := by
                simp [jsonEscape] at hfuel
                omega
              simp [jsonEscape, scanString, ih _ _ hf]
            · by_cases h5 : c = '\t'
              · subst h5
                have hf : (jsonEscape cs).length < fuel := by
                  simp [jsonEscape] at hfuel
                  omega
                simp [jsonEscape, scanString, ih _ _ hf]
              · by_cases h6 : (c.toNat < 32 || c = '<' || c = '>' || c = '&') = true
                · have hf : (jsonEscape cs).length < fuel := by
                    simp [jsonEscape, h1, h2, h3, h4, h5, h6] at hfuel
                    omega
                  have hsmall : c.toNat < 256 := by
                    simp only [Bool.or_eq_true, decide_eq_true_eq] at h6
                    rcases h6 with ((h6 | h6) | h6) | h6
                    · omega
                    · subst h6
                      decide
                    · subst h6
                      decide
                    · subst h6
                      decide
                  have hmod : c.toNat % 256 = c.toNat := Nat.mod_eq_of_lt hsmall
                  have hlow : ¬ (55296 ≤ c.toNat ∧ c.toNat < 57344) := by omega
                  simp [jsonEscape, scanString, h1, h2, h3, h4, h5, h6, getu4_hexChar, hmod,
                    hlow, ih _ _ hf]
                · have hge : ¬ c.toNat < 32 := by
                    intro hlt
                    simp [hlt] at h6
                  have hA : ¬ c = '<' := by
                    intro hc
                    simp [hc] at h6
                  have hB : ¬ c = '>' := by
                    intro hc
                    simp [hc] at h6
                  have hC : ¬ c = '&' := by
                    intro hc
                    simp [hc] at h6
                  by_cases h7 : c.toNat = 0x2028
                  · have hf : (jsonEscape cs).length < fuel := by
                      simp [jsonEscape, h1, h2, h3, h4, h5, hge, hA, hB, hC, h7] at hfuel
                      omega
                    have hc : c = Char.ofNat 0x2028 := by
                      rw [← h7, Char.ofNat_toNat]
                    subst hc
                    have hu : getu4 ('2' :: '0' :: '2' :: '8' :: (jsonEscape cs ++ '"' :: tail)) =
                        some (0x2028, jsonEscape cs ++ '"' :: tail) := by
                      simp [getu4, hexVal]
                    simp [jsonEscape, scanString, hu, ih _ _ hf]
                  · by_cases h8 : c.toNat = 0x2029
                    · have hf : (jsonEscape cs).length < fuel := by
                        simp [jsonEscape, h1, h2, h3, h4, h5, hge, hA, hB, hC, h7, h8] at hfuel
                        omega
                      have hc : c = Char.ofNat 0x2029 := by
                        rw [← h8, Char.ofNat_toNat]
                      subst hc
                      have hu : getu4 ('2' :: '0' :: '2' :: '9' :: (jsonEscape cs ++ '"' :: tail)) =
                          some (0x2029, jsonEscape cs ++ '"' :: tail) := by
                        simp [getu4, hexVal]
                      simp [jsonEscape, scanString, hu, ih _ _ hf]
                    · have hf : (jsonEscape cs).length < fuel := by
                        simp [jsonEscape, h1, h2, h3, h4, h5, hge, hA, hB, hC, h7, h8] at hfuel
                        omega
                      simp [jsonEscape, scanString, h1, h2, h3, h4, h5, h7, h8, hge, hA, hB, hC,
                        ih _ _ hf]

theorem scanString_intervalKey (n : Nat) (rest : List Char) :
    scanString (n + 9) ('i' :: 'n' :: 't' :: 'e' :: 'r' :: 'v' :: 'a' :: 'l' :: '"' :: rest) [] =
      some (['i', 'n', 't', 'e', 'r', 'v', 'a', 'l'], rest) := by
  simp [scanString]

theorem scanMembers_interval (n : Nat) (text : List Char) :
    scanMembers (n + 2)
        ('"' :: 'i' :: 'n' :: 't' :: 'e' :: 'r' :: 'v' :: 'a' :: 'l' :: '"' :: ':' :: '"' ::
          (jsonEscape text ++ ['"', '\x7d'])) [] =
      some (JVal.obj [(['i', 'n', 't', 'e', 'r', 'v', 'a', 'l'], JVal.str text)], []) := by
  have hkey := scanString_intervalKey ((jsonEscape text).length + 4)
    (':' :: '"' :: (jsonEscape text ++ ['"', '\x7d']))
  have hbody := scanString_jsonEscape text [] ['\x7d'] ((jsonEscape text).length + 2)
    (by omega)
  simp only [List.reverse_nil, List.nil_append] at hbody
  have hlen1 : ('i' :: 'n' :: 't' :: 'e' :: 'r' :: 'v' :: 'a' :: 'l' :: '"' :: ':' :: '"' ::
      (jsonEscape text ++ ['"', '\x7d'])).length = (jsonEscape text).length + 4 + 9 := by
    simp
  have hlen2 : (jsonEscape text ++ ['"', '\x7d']).length = (jsonEscape text).length + 2 := by
    simp
  have hs1 : skipSpace (':' :: '"' :: (jsonEscape text ++ ['"', '\x7d'])) =
      ':' :: '"' :: (jsonEscape text ++ ['"', '\x7d']) := by
    simp [skipSpace, isSpace]
  have hs2 : skipSpace ('"' :: (jsonEscape text ++ ['"', '\x7d'])) =
      '"' :: (jsonEscape text ++ ['"', '\x7d']) := by
    simp [skipSpace, isSpace]
  have hs3 : skipSpace ['\x7d'] = ['\x7d'] := by
    simp [skipSpace, isSpace]
  have hval : scanValue (n + 1) ('"' :: (jsonEscape text ++ ['"', '\x7d'])) =
      some (JVal.str text, ['\x7d']) := by
    simp [scanValue, hlen2, hbody]
  simp only [scanMembers, hlen1, hkey, hs1, hs2, hval, hs3, List.nil_append]

theorem jsonUnmarshalInterval_jsonMarshalInterval (v u1 : _usageConfig) :
    jsonUnmarshalInterval (jsonMarshalInterval v).1 u1 = (v, none) := by
  have hdata : ("\x7b\"interval\":\"".data ++ jsonEscape v.UsageCheckInterval.data ++
      "\"\x7d".data) =
      '\x7b' :: '"' :: 'i' :: 'n' :: 't' :: 'e' :: 'r' :: 'v' :: 'a' :: 'l' :: '"' :: ':' :: '"' ::
        (jsonEscape v.UsageCheckInterval.data ++ ['"', '\x7d']) := by
    have hpre : "\x7b\"interval\":\"".data =
        ['\x7b', '"', 'i', 'n', 't', 'e', 'r', 'v', 'a', 'l', '"', ':', '"'] := rfl
    have hpost : "\"\x7d".data = ['"', '\x7d'] := rfl
    rw [hpre, hpost]
    simp
  have hlen : (String.mk ('\x7b' :: '"' :: 'i' :: 'n' :: 't' :: 'e' :: 'r' :: 'v' :: 'a' :: 'l' ::
      '"' :: ':' :: '"' :: (jsonEscape v.UsageCheckInterval.data ++ ['"', '\x7d']))).length =
      (jsonEscape v.UsageCheckInterval.data).length + 13 + 2 := by
    simp [String.length]
  have hs0 : skipSpace ('\x7b' :: '"' :: 'i' :: 'n' :: 't' :: 'e' :: 'r' :: 'v' :: 'a' :: 'l' ::
      '"' :: ':' :: '"' :: (jsonEscape v.UsageCheckInterval.data ++ ['"', '\x7d'])) =
      '\x7b' :: '"' :: 'i' :: 'n' :: 't' :: 'e' :: 'r' :: 'v' :: 'a' :: 'l' ::
      '"' :: ':' :: '"' :: (jsonEscape v.UsageCheckInterval.data ++ ['"', '\x7d']) := by
    simp [skipSpace, isSpace]
  have hs1 : skipSpace ('"' :: 'i' :: 'n' :: 't' :: 'e' :: 'r' :: 'v' :: 'a' :: 'l' ::
      '"' :: ':' :: '"' :: (jsonEscape v.UsageCheckInterval.data ++ ['"', '\x7d'])) =
      '"' :: 'i' :: 'n' :: 't' :: 'e' :: 'r' :: 'v' :: 'a' :: 'l' ::
      '"' :: ':' :: '"' :: (jsonEscape v.UsageCheckInterval.data ++ ['"', '\x7d']) := by
    simp [skipSpace, isSpace]
  have hkey : isIntervalKey ['i', 'n', 't', 'e', 'r', 'v', 'a', 'l'] = true := by decide
  have hmem := scanMembers_interval ((jsonEscape v.UsageCheckInterval.data).length + 13)
    v.UsageCheckInterval.data
  simp only [jsonUnmarshalInterval, jsonMarshalInterval, parseJSON, hdata, hlen, hs0]
  simp only [scanValue, hs1]
  simp [hmem, skipSpace, decodeMembers, hkey]

/-! ## Claims about the usage-check interval -/

/-- C6: when the standard parser accepts `text` as the duration `d`,
`parseDuration` returns `d` with the range error, whose message holds the
string forms of `d` and of the minimum, if `d` is below the minimum, and
returns `d` with no error if `d` is at least the minimum (equality included). -/
theorem C6_parseDuration_range (std : Std) (g : Globals) (text : String) (d : Duration)
    (hparse : std.ParseDuration text = (d, none)) :
    (d < g.globalMinimumUsageCheckInterval →
        parseDuration std g text =
          (d, some (GoError.errorString ("interval " ++ std.durationString d ++
            " is not allowed, minimum required value is " ++
            std.durationString g.globalMinimumUsageCheckInterval))) ∧
        (std.durationString d).data <:+:
          ("interval " ++ std.durationString d ++
            " is not allowed, minimum required value is " ++
            std.durationString g.globalMinimumUsageCheckInterval).data ∧
        (std.durationString g.globalMinimumUsageCheckInterval).data <:+:
          ("interval " ++ std.durationString d ++
            " is not allowed, minimum required value is " ++
            std.durationString g.globalMinimumUsageCheckInterval).data) ∧
      (g.globalMinimumUsageCheckInterval ≤ d → parseDuration std g text = (d, none)) := by
  refine ⟨fun hlt => ⟨?_, ?_, ?_⟩, fun hge => ?_⟩
  · simp only [parseDuration, hparse, hlt, if_true, intervalNotAllowed]
  · simp only [String.data_append]
    exact ⟨"interval ".data, " is not allowed, minimum required value is ".data ++
      (std.durationString g.globalMinimumUsageCheckInterval).data, by simp⟩
  · simp only [String.data_append]
    exact ⟨"interval ".data ++ (std.durationString d).data ++
      " is not allowed, minimum required value is ".data, [], by simp⟩
  · simp only [parseDuration, hparse, not_lt.2 hge, if_false]

/-- C6, the example of the specification: with a minimum of one hour, `30m`
fails with a range error that mentions `30m` and `1h`, and `2h` yields exactly
two hours. -/
theorem C6_parseDuration_range_witness :
    goStd.ParseDuration "30m" = (30 * Minute, none) ∧
      goStd.ParseDuration "2h" = (2 * Hour, none) ∧
      30 * Minute < (globalsWith Hour false).globalMinimumUsageCheckInterval ∧
      (globalsWith Hour false).globalMinimumUsageCheckInterval ≤ 2 * Hour ∧
      parseDuration goStd (globalsWith Hour false) "30m" =
        (30 * Minute, some (GoError.errorString
          "interval 30m0s is not allowed, minimum required value is 1h0m0s")) ∧
      "30m".data <:+:
        "interval 30m0s is not allowed, minimum required value is 1h0m0s".data ∧
      "1h".data <:+:
        "interval 30m0s is not allowed, minimum required value is 1h0m0s".data ∧
      parseDuration goStd (globalsWith Hour false) "2h" = (2 * Hour, none) :=
  ⟨by decide, by decide, by decide, by decide,
    ((C6_parseDuration_range goStd (globalsWith Hour false) "30m" (30 * Minute)
      (by decide)).1 (by decide)).1,
    by decide, by decide,
    (C6_parseDuration_range goStd (globalsWith Hour false) "2h" (2 * Hour)
      (by decide)).2 (by decide)⟩

/-- C7: when the standard parser rejects `text` with the error `e`,
`parseDuration` returns what the parser returned, its error `e` included,
whatever the minimum threshold is; and an error of the parser of package `time`
is never the range error, for any duration and any minimum. -/
theorem C7_parseDuration_parse_error (std : Std) (g : Globals) (text : String)
    (d : Duration) (e : GoError) (hparse : std.ParseDuration text = (d, some e)) :
    parseDuration std g text = (d, some e) ∧
      (∀ (text0 : String) (d0 : Duration) (e0 : GoError),
        goStd.ParseDuration text0 = (d0, some e0) →
        ∀ (std0 : Std) (d1 min : Duration), e0 ≠ intervalNotAllowed std0 d1 min) := by
  refine ⟨?_, fun text0 d0 e0 h0 std0 d1 min => ?_⟩
  · simp only [parseDuration, hparse]
  · exact isTimeError_ne_intervalNotAllowed std0 e0 (ParseDuration_error text0 d0 e0 h0) d1 min

/-- C7, the example of the specification: `not-a-duration` fails with the
parser's error, also under a minimum the zero duration is below. -/
theorem C7_parseDuration_parse_error_witness :
    goStd.ParseDuration "not-a-duration" =
        (0, some (GoError.errorString "time: invalid duration not-a-duration")) ∧
      parseDuration goStd (globalsWith Hour false) "not-a-duration" =
        (0, some (GoError.errorString "time: invalid duration not-a-duration")) ∧
      GoError.errorString "time: invalid duration not-a-duration" ≠
        intervalNotAllowed goStd 0 Hour :=
  ⟨by decide,
    (C7_parseDuration_parse_error goStd (globalsWith Hour false) "not-a-duration" 0
      (GoError.errorString "time: invalid duration not-a-duration") (by decide)).1,
    (C7_parseDuration_parse_error goStd (globalsWith Hour false) "not-a-duration" 0
      (GoError.errorString "time: invalid duration not-a-duration") (by decide)).2
      "not-a-duration" 0 _ (by decide) goStd 0 Hour⟩

/-- C8, as stated, fails: with a minimum threshold of one hour the encoding of
an interval of 45 minutes does not decode; the decode returns the range error
and leaves the receiver as it was. -/
theorem C8_roundtrip_45m_counterexample :
    usageConfig.MarshalJSON goStd { UsageCheckInterval := 45 * Minute } =
        ("\x7b\"interval\":\"45m0s\"\x7d", none) ∧
      usageConfig.UnmarshalJSON goStd (globalsWith Hour false) { UsageCheckInterval := 0 }
          (usageConfig.MarshalJSON goStd { UsageCheckInterval := 45 * Minute }).1 =
        ({ UsageCheckInterval := 0 }, some (GoError.errorString
          "interval 45m0s is not allowed, minimum required value is 1h0m0s")) ∧
      ¬ ((usageConfig.UnmarshalJSON goStd (globalsWith Hour false) { UsageCheckInterval := 0 }
          (usageConfig.MarshalJSON goStd { UsageCheckInterval := 45 * Minute }).1).2 = none ∧
        (usageConfig.UnmarshalJSON goStd (globalsWith Hour false) { UsageCheckInterval := 0 }
          (usageConfig.MarshalJSON goStd { UsageCheckInterval := 45 * Minute }).1).1 =
            { UsageCheckInterval := 45 * Minute }) := by
  decide

/-- C8, amended: when the minimum threshold is at most 45 minutes and the
environment flag is unset, encoding a `usageConfig` whose interval is 45 minutes
succeeds, and decoding the result into any receiver succeeds and yields the
interval 45 minutes exactly. -/
theorem C8_roundtrip_45m (min : Duration) (u0 : usageConfig) (hmin : min ≤ 45 * Minute) :
    (usageConfig.MarshalJSON goStd { UsageCheckInterval := 45 * Minute }).2 = none ∧
      usageConfig.UnmarshalJSON goStd (globalsWith min false) u0
          (usageConfig.MarshalJSON goStd { UsageCheckInterval := 45 * Minute }).1 =
        ({ UsageCheckInterval := 45 * Minute }, none) := by
  have hjson : goStd.jsonUnmarshal
      (usageConfig.MarshalJSON goStd { UsageCheckInterval := 45 * Minute }).1
      { UsageCheckInterval := "" } = ({ UsageCheckInterval := "45m0s" }, none) := by decide
  have hparse : goStd.ParseDuration "45m0s" = (45 * Minute, none) := by decide
  refine ⟨by decide, ?_⟩
  simp only [usageConfig.UnmarshalJSON, hjson, parseDuration, hparse, globalsWith,
    not_lt.2 hmin, if_false, Bool.not_false, if_true]

/-- C8 amended, an example: with a minimum of 30 minutes the interval of 45
minutes survives the round trip. -/
theorem C8_roundtrip_45m_witness :
    30 * Minute ≤ 45 * Minute ∧
      usageConfig.UnmarshalJSON goStd (globalsWith (30 * Minute) false)
          { UsageCheckInterval := 12 * Hour }
          (usageConfig.MarshalJSON goStd { UsageCheckInterval := 45 * Minute }).1 =
        ({ UsageCheckInterval := 45 * Minute }, none) :=
  ⟨by decide, (C8_roundtrip_45m (30 * Minute) { UsageCheckInterval := 12 * Hour }
    (by decide)).2⟩

/-- C9: with the environment flag set, whenever the JSON decoding of the input
succeeds, `UnmarshalJSON` returns no error and leaves the receiver, its interval
included, as it was: the text is never parsed. With the modelled JSON library
that covers the object `\x7b"interval": text\x7d` for every string `text`,
well-formed duration or not. -/
theorem C9_env_flag_keeps_interval (std : Std) (g : Globals) (u : usageConfig)
    (data : String) (u1 : _usageConfig)
    (henv : g.globalIsEnvUsageCheck = true)
    (hjson : std.jsonUnmarshal data { UsageCheckInterval := "" } = (u1, none)) :
    usageConfig.UnmarshalJSON std g u data = (u, none) ∧
      (usageConfig.UnmarshalJSON std g u data).1.UsageCheckInterval = u.UsageCheckInterval ∧
      (∀ text : String,
        usageConfig.UnmarshalJSON goStd g u
          (goStd.jsonMarshal { UsageCheckInterval := text }).1 = (u, none)) := by
  refine ⟨?_, ?_, fun text => ?_⟩
  · simp only [usageConfig.UnmarshalJSON, hjson, henv, Bool.not_true, Bool.false_eq_true,
      if_false]
  · simp only [usageConfig.UnmarshalJSON, hjson, henv, Bool.not_true, Bool.false_eq_true,
      if_false]
  · have hrt : goStd.jsonUnmarshal (goStd.jsonMarshal { UsageCheckInterval := text }).1
        { UsageCheckInterval := "" } = ({ UsageCheckInterval := text }, none) :=
      jsonUnmarshalInterval_jsonMarshalInterval _ _
    simp only [usageConfig.UnmarshalJSON, hrt, henv, Bool.not_true, Bool.false_eq_true,
      if_false]

/-- C9, examples with a minimum of one hour and a receiver holding 12 hours: a
duration above the minimum, a duration below the minimum and a malformed text
all decode without error and leave the 12 hours in place. -/
theorem C9_env_flag_keeps_interval_witness :
    (globalsWith Hour true).globalIsEnvUsageCheck = true ∧
      goStd.jsonUnmarshal "\x7b\"interval\":\"2h\"\x7d" { UsageCheckInterval := "" } =
        ({ UsageCheckInterval := "2h" }, none) ∧
      goStd.jsonUnmarshal "\x7b\"interval\":\"30m\"\x7d" { UsageCheckInterval := "" } =
        ({ UsageCheckInterval := "30m" }, none) ∧
      goStd.jsonUnmarshal "\x7b\"interval\":\"not-a-duration\"\x7d"
          { UsageCheckInterval := "" } =
        ({ UsageCheckInterval := "not-a-duration" }, none) ∧
      usageConfig.UnmarshalJSON goStd (globalsWith Hour true) { UsageCheckInterval := 12 * Hour }
          "\x7b\"interval\":\"2h\"\x7d" = ({ UsageCheckInterval := 12 * Hour }, none) ∧
      usageConfig.UnmarshalJSON goStd (globalsWith Hour true) { UsageCheckInterval := 12 * Hour }
          "\x7b\"interval\":\"30m\"\x7d" = ({ UsageCheckInterval := 12 * Hour }, none) ∧
      usageConfig.UnmarshalJSON goStd (globalsWith Hour true) { UsageCheckInterval := 12 * Hour }
          "\x7b\"interval\":\"not-a-duration\"\x7d" =
        ({ UsageCheckInterval := 12 * Hour }, none) :=
  ⟨rfl, by decide, by decide, by decide,
    (C9_env_flag_keeps_interval goStd (globalsWith Hour true) { UsageCheckInterval := 12 * Hour }
      "\x7b\"interval\":\"2h\"\x7d" { UsageCheckInterval := "2h" } rfl (by decide)).1,
    (C9_env_flag_keeps_interval goStd (globalsWith Hour true) { UsageCheckInterval := 12 * Hour }
      "\x7b\"interval\":\"30m\"\x7d" { UsageCheckInterval := "30m" } rfl (by decide)).1,
    (C9_env_flag_keeps_interval goStd (globalsWith Hour true) { UsageCheckInterval := 12 * Hour }
      "\x7b\"interval\":\"not-a-duration\"\x7d" { UsageCheckInterval := "not-a-duration" } rfl
      (by decide)).1⟩

/-- C10: with the environment flag unset, whenever `UnmarshalJSON` returns no
error, the interval it stored is the duration the standard parser returned for
the decoded text, unchanged, and that duration is at least the minimum
threshold. -/
theorem C10_decoded_interval_at_least_minimum (std : Std) (g : Globals) (u u0 : usageConfig)
    (data : String) (henv : g.globalIsEnvUsageCheck = false)
    (hok : usageConfig.UnmarshalJSON std g u data = (u0, none)) :
    g.globalMinimumUsageCheckInterval ≤ u0.UsageCheckInterval ∧
      ∃ u1, std.jsonUnmarshal data { UsageCheckInterval := "" } = (u1, none) ∧
        std.ParseDuration u1.UsageCheckInterval = (u0.UsageCheckInterval, none) := by
  simp only [usageConfig.UnmarshalJSON, henv, Bool.not_false, if_true] at hok
  rcases hj : std.jsonUnmarshal data { UsageCheckInterval := "" } with ⟨u1, jerr⟩
  rw [hj] at hok
  rcases jerr with _ | je
  · simp only [parseDuration] at hok
    rcases hp : std.ParseDuration u1.UsageCheckInterval with ⟨d, perr⟩
    rw [hp] at hok
    rcases perr with _ | pe
    · simp only [] at hok
      by_cases hlt : d < g.globalMinimumUsageCheckInterval
      · simp [hlt] at hok
      · simp only [hlt, if_false, Prod.mk.injEq, and_true] at hok
        subst hok
        exact ⟨not_lt.1 hlt, u1, rfl, hp⟩
    · simp at hok
  · simp at hok

/-- C10, examples with a minimum of one hour: the text `2h` is stored as two
hours, which is above the minimum; the text `1h` is stored as exactly one hour;
the text `30m` is refused, the receiver keeping its 12 hours. -/
theorem C10_decoded_interval_at_least_minimum_witness :
    (globalsWith Hour false).globalIsEnvUsageCheck = false ∧
      usageConfig.UnmarshalJSON goStd (globalsWith Hour false) { UsageCheckInterval := 12 * Hour }
          "\x7b\"interval\":\"2h\"\x7d" = ({ UsageCheckInterval := 2 * Hour }, none) ∧
      (globalsWith Hour false).globalMinimumUsageCheckInterval ≤ 2 * Hour ∧
      usageConfig.UnmarshalJSON goStd (globalsWith Hour false) { UsageCheckInterval := 12 * Hour }
          "\x7b\"interval\":\"1h\"\x7d" = ({ UsageCheckInterval := Hour }, none) ∧
      usageConfig.UnmarshalJSON goStd (globalsWith Hour false) { UsageCheckInterval := 12 * Hour }
          "\x7b\"interval\":\"30m\"\x7d" =
        ({ UsageCheckInterval := 12 * Hour }, some (GoError.errorString
          "interval 30m0s is not allowed, minimum required value is 1h0m0s")) :=
  ⟨rfl, by decide,
    (C10_decoded_interval_at_least_minimum goStd (globalsWith Hour false)
      { UsageCheckInterval := 12 * Hour } { UsageCheckInterval := 2 * Hour }
      "\x7b\"interval\":\"2h\"\x7d" rfl (by decide)).1,
    by decide, by decide⟩

/-! ## Further claims about the walker -/

theorem usageTrace_eq_trace {κ σ ε : Type} (c : Collab σ ε) (ctx : κ) (root : String)
    (usageFn : usageFunc κ σ ε) (fuel : Nat) (s : σ) :
    usageTrace c ctx root usageFn fuel s =
      trace c ctx usageFn fuel (root ++ c.slashSeparator) s :=
  rfl

theorem exampleHasSuffix_append (p suffix : String) :
    exampleHasSuffix (p ++ suffix) suffix = true := by
  simp [exampleHasSuffix, String.data_append]

/-- C11: `getDiskUsage(root, usageFn)` is `walk` started at `root` with the
separator appended. When `hasSuffix` recognises the appended separator, every
run (with fuel for at least one call) begins with the visitor call on that path,
and if that call succeeds the next call is the listing of that same path: the
root is handled as a directory, whatever `root` ends with. -/
theorem C11_getDiskUsage_root_is_directory {κ σ ε : Type} (c : Collab σ ε) (ctx : κ)
    (root : String) (usageFn : usageFunc κ σ ε) (fuel : Nat) (s : σ)
    (hsuf : c.hasSuffix (root ++ c.slashSeparator) c.slashSeparator = true) :
    getDiskUsage c ctx root usageFn (fuel + 1) s =
        walk c ctx usageFn (fuel + 1) (root ++ c.slashSeparator) s ∧
      (∃ rest, usageTrace c ctx root usageFn (fuel + 1) s =
        Event.visit (root ++ c.slashSeparator)
          (usageFn ctx (root ++ c.slashSeparator) s).1 :: rest) ∧
      ((usageFn ctx (root ++ c.slashSeparator) s).1 = none →
        ∃ rest, usageTrace c ctx root usageFn (fuel + 1) s =
          Event.visit (root ++ c.slashSeparator) none ::
            Event.list (root ++ c.slashSeparator)
              (c.readDir (root ++ c.slashSeparator)
                (usageFn ctx (root ++ c.slashSeparator) s).2).1 :: rest) := by
  refine ⟨rfl, ?_, ?_⟩
  · rw [usageTrace_eq_trace, trace_eq_run]
    simp only [run]
    rcases h1 : usageFn ctx (root ++ c.slashSeparator) s with ⟨r1, s1⟩
    rcases r1 with _ | err
    · simp only [hsuf, Bool.not_true, Bool.false_eq_true, if_false]
      rcases h2 : c.readDir (root ++ c.slashSeparator) s1 with ⟨r2, s2⟩
      rcases r2 with e | entries
      · exact ⟨_, rfl⟩
      · exact ⟨_, rfl⟩
    · exact ⟨_, rfl⟩
  · intro hfirst
    rw [usageTrace_eq_trace, trace_eq_run]
    simp only [run]
    rcases h1 : usageFn ctx (root ++ c.slashSeparator) s with ⟨r1, s1⟩
    rw [h1] at hfirst
    simp only [] at hfirst
    subst hfirst
    simp only [hsuf, Bool.not_true, Bool.false_eq_true, if_false]
    rcases h2 : c.readDir (root ++ c.slashSeparator) s1 with ⟨r2, s2⟩
    rcases r2 with e | entries
    · exact ⟨_, rfl⟩
    · exact ⟨_, rfl⟩

/-- C11, two examples: the root `/a` is walked as `/a/`, whose listing is
called; the root `/a/`, which already ends with the separator, is walked as
`/a//`, and its listing is called as well (it fails, so the visitor is called
a second time). -/
theorem C11_getDiskUsage_root_is_directory_witness :
    (∀ root : String, exampleCollab.hasSuffix (root ++ exampleCollab.slashSeparator)
        exampleCollab.slashSeparator = true) ∧
      exampleCollab.hasSuffix ("/a/" ++ exampleCollab.slashSeparator)
        exampleCollab.slashSeparator = true ∧
      usageTrace exampleCollab () "/a" countUsage 2 0 =
        [Event.visit "/a/" none, Event.list "/a/" (Except.ok ["b/", "c"]),
          Event.visit "/a/b/" none, Event.list "/a/b/" (Except.ok []),
          Event.visit "/a/c" none] ∧
      usageTrace exampleCollab () "/a/" countUsage 2 0 =
        [Event.visit "/a//" none, Event.list "/a//" (Except.error "not a directory"),
          Event.visit "/a//" none] ∧
      getDiskUsage exampleCollab () "/a/" countUsage 2 0 =
        walk exampleCollab () countUsage 2 "/a//" 0 :=
  ⟨fun root => exampleHasSuffix_append root "/", by decide, by rfl, by rfl,
    (C11_getDiskUsage_root_is_directory exampleCollab () "/a/" countUsage 1 0
      (by decide)).1⟩

mutual
theorem Tree.length_calls : ∀ t : Tree, t.calls.length = t.size + t.failures
  | Tree.file _ => rfl
  | Tree.dir p kids => by
    simp only [Tree.calls, Tree.size, Tree.failures, List.length_cons,
      Tree.length_callsList kids]
    omega
  | Tree.unreadable _ => rfl
theorem Tree.length_callsList :
    ∀ ts : List Tree,
      (Tree.callsList ts).length = Tree.sizeList ts + Tree.failuresList ts
  | [] => rfl
  | t :: ts => by
    simp only [Tree.callsList, Tree.sizeList, Tree.failuresList, List.length_append,
      Tree.length_calls t, Tree.length_callsList ts]
    omega
end

/-- On a described tree, with any visitor and fuel of at least the depth, the
run returns: either `nil` after the calls of the whole tree, none of which
failed, or the first visitor error, after a prefix of those calls. -/
theorem run_tree_any {κ σ ε : Type} (c : Collab σ ε) (ctx : κ) (usageFn : usageFunc κ σ ε)
    (fuel : Nat) (t : Tree) (s : σ) (ht : Describes c t) (hdepth : t.depth ≤ fuel) :
    ((run c ctx usageFn fuel t.path s).1 = some none ∧
        visits (run c ctx usageFn fuel t.path s).2.2 = t.calls ∧
        noFailedVisit (run c ctx usageFn fuel t.path s).2.2) ∨
      (∃ e pre p, (run c ctx usageFn fuel t.path s).1 = some (some e) ∧
        (run c ctx usageFn fuel t.path s).2.2 = pre ++ [Event.visit p (some e)] ∧
        noFailedVisit pre ∧
        visits (run c ctx usageFn fuel t.path s).2.2 <+: t.calls) := by
  have hq := run_tree c ctx (quiet usageFn) (fun _ _ => rfl) fuel t s ht hdepth
  have hrel := run_quieted c ctx usageFn fuel t.path s
  have hlast := run_errorLast c ctx usageFn fuel t.path s
  rcases hr : (run c ctx usageFn fuel t.path s).1 with _ | _ | e
  · simp only [Quieted, hr] at hrel
    rw [hrel, hr] at hq
    simp at hq
  · simp only [Quieted, hr] at hrel
    simp only [ErrorLast, hr] at hlast
    rw [hrel] at hq
    exact Or.inl ⟨rfl, hq.2.1, hlast⟩
  · simp only [Quieted, hr] at hrel
    obtain ⟨pre, p, post, h1, h2⟩ := hrel
    have hsplit := ErrorLast_split hlast pre [] p e h1
    refine Or.inr ⟨e, pre, p, rfl, h1, hsplit.2.2, ?_⟩
    rw [← hq.2.1, h1, h2]
    simp only [visits_append, visits]
    exact ⟨visits post, by simp⟩

/-- C15: on a finite tree in which any set of directories is unreadable (they
are the leaves `unreadable`, nothing below them being reached), with a visitor
that never returns an error and fuel of at least the depth, `walk` returns
`nil` and its visitor calls are the pre-order of the tree with every unreadable
directory called twice in a row and every other node once; their number is the
number of nodes plus the number of unreadable directories, and every directory
is listed once. -/
theorem C15_unreadable_counted_twice {κ σ ε : Type} (c : Collab σ ε) (ctx : κ)
    (usageFn : usageFunc κ σ ε) (t : Tree) (fuel : Nat) (s : σ)
    (ht : Describes c t) (hvisit : ∀ p s0, (usageFn ctx p s0).1 = none)
    (hfuel : t.depth ≤ fuel) :
    (walk c ctx usageFn fuel t.path s).1 = some none ∧
      visits (trace c ctx usageFn fuel t.path s) = t.calls ∧
      (visits (trace c ctx usageFn fuel t.path s)).length = t.size + t.failures ∧
      listings (trace c ctx usageFn fuel t.path s) = t.dirs := by
  have h := run_tree c ctx usageFn hvisit fuel t s ht hfuel
  rw [walk_eq_run, trace_eq_run, h.2.1, Tree.length_calls]
  exact ⟨h.1, rfl, rfl, h.2.2⟩

/-- C15, an example: with `/a/b/` unreadable the visitor is called on `/a/`,
twice on `/a/b/` and once on `/a/c`: four calls for three nodes and one
unreadable directory. -/
theorem C15_unreadable_counted_twice_witness :
    Describes flakyCollab flakyTree ∧
      (∀ (p : String) (s0 : Nat), (countUsage () p s0).1 = none) ∧
      flakyTree.depth ≤ 2 ∧
      walk flakyCollab () countUsage 2 "/a/" 0 = (some none, 4) ∧
      visits (trace flakyCollab () countUsage 2 "/a/" 0) =
        ["/a/", "/a/b/", "/a/b/", "/a/c"] ∧
      (visits (trace flakyCollab () countUsage 2 "/a/" 0)).length = 3 + 1 ∧
      listings (trace flakyCollab () countUsage 2 "/a/" 0) = ["/a/", "/a/b/"] :=
  ⟨flakyTree_describes, fun _ _ => rfl, by decide, by rfl,
    (C15_unreadable_counted_twice flakyCollab () countUsage flakyTree 2 0
      flakyTree_describes (fun _ _ => rfl) (by decide)).2.1,
    (C15_unreadable_counted_twice flakyCollab () countUsage flakyTree 2 0
      flakyTree_describes (fun _ _ => rfl) (by decide)).2.2.1,
    (C15_unreadable_counted_twice flakyCollab () countUsage flakyTree 2 0
      flakyTree_describes (fun _ _ => rfl) (by decide)).2.2.2⟩

theorem walk_endless (fuel : Nat) (path : String) (n : Nat)
    (hdir : exampleHasSuffix path "/" = true) :
    (walk endlessCollab () countUsage fuel path n).1 = none := by
  induction fuel generalizing path n with
  | zero => rfl
  | succ fuel ih =>
    have hnext : exampleHasSuffix (examplePathJoin path "x/") "/" = true := by
      simp only [exampleHasSuffix, examplePathJoin, String.data_append,
        List.isSuffixOf_iff_suffix]
      exact ⟨path.data ++ ['x'], by simp⟩
    have hrec := ih (examplePathJoin path "x/") (n + 1) hnext
    rcases hw : walk endlessCollab () countUsage fuel (examplePathJoin path "x/") (n + 1)
      with ⟨r, s1⟩
    rw [hw] at hrec
    simp only [] at hrec
    subst hrec
    have hdir0 : endlessCollab.hasSuffix path endlessCollab.slashSeparator = true := hdir
    have hw0 : walk endlessCollab () countUsage fuel (endlessCollab.pathJoin path "x/") (n + 1) =
        (none, s1) := hw
    have hread : endlessCollab.readDir path (n + 1) = (Except.ok ["x/"], n + 1) := rfl
    simp only [walk, countUsage, hdir0, Bool.not_true, Bool.false_eq_true, if_false, hread,
      walkEntries, hw0]

/-- C16: when the listings below the root form a finite tree `t`, `walk` on the
root of `t` returns for every visitor once the fuel reaches the depth of `t`:
either `nil`, after the visitor calls of the whole tree with none of them
failing, or the error of the first failing visitor call, which is the last
call, after a prefix of the calls of the tree. -/
theorem C16_walk_terminates {κ σ ε : Type} (c : Collab σ ε) (ctx : κ)
    (usageFn : usageFunc κ σ ε) (t : Tree) (fuel : Nat) (s : σ)
    (ht : Describes c t) (hfuel : t.depth ≤ fuel) :
    ((walk c ctx usageFn fuel t.path s).1 = some none ∧
        visits (trace c ctx usageFn fuel t.path s) = t.calls ∧
        noFailedVisit (trace c ctx usageFn fuel t.path s)) ∨
      (∃ e pre p, (walk c ctx usageFn fuel t.path s).1 = some (some e) ∧
        trace c ctx usageFn fuel t.path s = pre ++ [Event.visit p (some e)] ∧
        noFailedVisit pre ∧
        visits (trace c ctx usageFn fuel t.path s) <+: t.calls) := by
  rw [walk_eq_run, trace_eq_run]
  exact run_tree_any c ctx usageFn fuel t s ht hfuel

/-- C16, examples: on the example tree the walk returns `nil` with a visitor
that never fails and returns the visitor's error with one that fails on
`/a/b/`; on a listing without end, which is no finite tree, the walk runs out
of every fuel. -/
theorem C16_walk_terminates_witness :
    Describes exampleCollab exampleTree ∧ exampleTree.depth ≤ 2 ∧
      (walk exampleCollab () countUsage 2 "/a/" 0).1 = some none ∧
      (walk exampleCollab () (failOn "/a/b/") 2 "/a/" 0).1 = some (some "denied") ∧
      (walk exampleCollab () countUsage 2 exampleTree.path 0).1 ≠ none ∧
      (∀ fuel : Nat, (walk endlessCollab () countUsage fuel "/a/" 0).1 = none) :=
  ⟨exampleTree_describes, by decide, by rfl, by rfl,
    (C16_walk_terminates exampleCollab () countUsage exampleTree 2 0
      exampleTree_describes (by decide)).elim
      (fun h => by rw [h.1]; simp)
      (fun h => by
        obtain ⟨e, _, _, he, _⟩ := h
        rw [he]
        simp),
    fun fuel => walk_endless fuel "/a/" 0 (by decide)⟩

/-! ## Further claims about the usage-check interval -/

theorem parseJSON_jsonMarshalInterval (v : _usageConfig) :
    parseJSON (jsonMarshalInterval v).1 =
      some (JVal.obj [(['i', 'n', 't', 'e', 'r', 'v', 'a', 'l'],
        JVal.str v.UsageCheckInterval.data)]) := by
  have hdata : ("\x7b\"interval\":\"".data ++ jsonEscape v.UsageCheckInterval.data ++
      "\"\x7d".data) =
      '\x7b' :: '"' :: 'i' :: 'n' :: 't' :: 'e' :: 'r' :: 'v' :: 'a' :: 'l' :: '"' :: ':' :: '"' ::
        (jsonEscape v.UsageCheckInterval.data ++ ['"', '\x7d']) := by
    have hpre : "\x7b\"interval\":\"".data =
        ['\x7b', '"', 'i', 'n', 't', 'e', 'r', 'v', 'a', 'l', '"', ':', '"'] := rfl
    have hpost : "\"\x7d".data = ['"', '\x7d'] := rfl
    rw [hpre, hpost]
    simp
  have hlen : (String.mk ('\x7b' :: '"' :: 'i' :: 'n' :: 't' :: 'e' :: 'r' :: 'v' :: 'a' :: 'l' ::
      '"' :: ':' :: '"' :: (jsonEscape v.UsageCheckInterval.data ++ ['"', '\x7d']))).length =
      (jsonEscape v.UsageCheckInterval.data).length + 13 + 2 := by
    simp [String.length]
  have hs0 : skipSpace ('\x7b' :: '"' :: 'i' :: 'n' :: 't' :: 'e' :: 'r' :: 'v' :: 'a' :: 'l' ::
      '"' :: ':' :: '"' :: (jsonEscape v.UsageCheckInterval.data ++ ['"', '\x7d'])) =
      '\x7b' :: '"' :: 'i' :: 'n' :: 't' :: 'e' :: 'r' :: 'v' :: 'a' :: 'l' ::
      '"' :: ':' :: '"' :: (jsonEscape v.UsageCheckInterval.data ++ ['"', '\x7d']) := by
    simp [skipSpace, isSpace]
  have hs1 : skipSpace ('"' :: 'i' :: 'n' :: 't' :: 'e' :: 'r' :: 'v' :: 'a' :: 'l' ::
      '"' :: ':' :: '"' :: (jsonEscape v.UsageCheckInterval.data ++ ['"', '\x7d'])) =
      '"' :: 'i' :: 'n' :: 't' :: 'e' :: 'r' :: 'v' :: 'a' :: 'l' ::
      '"' :: ':' :: '"' :: (jsonEscape v.UsageCheckInterval.data ++ ['"', '\x7d']) := by
    simp [skipSpace, isSpace]
  have hmem := scanMembers_interval ((jsonEscape v.UsageCheckInterval.data).length + 13)
    v.UsageCheckInterval.data
  simp only [jsonMarshalInterval, parseJSON, hdata, hlen, hs0]
  simp only [scanValue, hs1]
  simp [hmem, skipSpace]

/-- C12: `MarshalJSON` passes the string form of the interval, in the one field
of `_usageConfig`, to `json.Marshal`, and reads no package variable. With the
modelled library it never fails, and its output parses as a JSON object with
exactly one member, named `interval`, whose value is the JSON string holding
the canonical string form of the interval; 45 minutes gives
`\x7b"interval":"45m0s"\x7d`. -/
theorem C12_marshal_single_interval_field (u : usageConfig) :
    (∀ std : Std, usageConfig.MarshalJSON std u =
        std.jsonMarshal { UsageCheckInterval := std.durationString u.UsageCheckInterval }) ∧
      (usageConfig.MarshalJSON goStd u).2 = none ∧
      parseJSON (usageConfig.MarshalJSON goStd u).1 =
        some (JVal.obj [("interval".data,
          JVal.str (Duration.String u.UsageCheckInterval).data)]) ∧
      usageConfig.MarshalJSON goStd { UsageCheckInterval := 45 * Minute } =
        ("\x7b\"interval\":\"45m0s\"\x7d", none) := by
  refine ⟨fun _ => rfl, rfl, ?_, by decide⟩
  exact parseJSON_jsonMarshalInterval { UsageCheckInterval := Duration.String u.UsageCheckInterval }

/-- C14: whenever `UnmarshalJSON` returns an error, whichever step produced it
(the JSON decoding, the duration parser or the minimum check), the receiver is
returned exactly as it was before the call. -/
theorem C14_unmarshal_error_keeps_receiver (std : Std) (g : Globals) (u : usageConfig)
    (data : String) (e : GoError)
    (herr : (usageConfig.UnmarshalJSON std g u data).2 = some e) :
    (usageConfig.UnmarshalJSON std g u data).1 = u := by
  simp only [usageConfig.UnmarshalJSON] at herr ⊢
  rcases hj : std.jsonUnmarshal data { UsageCheckInterval := "" } with ⟨u1, jerr⟩
  rw [hj] at herr
  rcases jerr with _ | je
  · simp only [] at herr ⊢
    by_cases henv : g.globalIsEnvUsageCheck = true
    · simp [henv] at herr
    · simp only [henv, Bool.not_false, Bool.not_eq_true] at herr ⊢
      rcases hp : parseDuration std g u1.UsageCheckInterval with ⟨d, perr⟩
      rw [hp] at herr
      rcases perr with _ | pe
      · simp [henv] at herr
      · simp [henv]
  · rfl

/-- C14, examples with a minimum of one hour and a receiver holding 12 hours:
malformed JSON, a malformed duration and a duration below the minimum each
return an error and leave the 12 hours in place. -/
theorem C14_unmarshal_error_keeps_receiver_witness :
    usageConfig.UnmarshalJSON goStd (globalsWith Hour false) { UsageCheckInterval := 12 * Hour }
        "\x7b\"interval\":" = ({ UsageCheckInterval := 12 * Hour }, some GoError.jsonSyntaxError) ∧
      usageConfig.UnmarshalJSON goStd (globalsWith Hour false) { UsageCheckInterval := 12 * Hour }
        "\x7b\"interval\":\"not-a-duration\"\x7d" =
        ({ UsageCheckInterval := 12 * Hour },
          some (GoError.errorString "time: invalid duration not-a-duration")) ∧
      usageConfig.UnmarshalJSON goStd (globalsWith Hour false) { UsageCheckInterval := 12 * Hour }
        "\x7b\"interval\":\"30m\"\x7d" =
        ({ UsageCheckInterval := 12 * Hour }, some (GoError.errorString
          "interval 30m0s is not allowed, minimum required value is 1h0m0s")) ∧
      (usageConfig.UnmarshalJSON goStd (globalsWith Hour false)
        { UsageCheckInterval := 12 * Hour } "\x7b\"interval\":\"30m\"\x7d").1 =
        { UsageCheckInterval := 12 * Hour } :=
  ⟨by decide, by decide, by decide,
    C14_unmarshal_error_keeps_receiver goStd (globalsWith Hour false)
      { UsageCheckInterval := 12 * Hour } "\x7b\"interval\":\"30m\"\x7d"
      (GoError.errorString "interval 30m0s is not allowed, minimum required value is 1h0m0s")
      (by decide)⟩

/-! ## The canonical text of a duration parses back -/

theorem decimalValue_nil (x : Nat) : decimalValue x [] = x := rfl

theorem decimalValue_cons (x : Nat) (c : Char) (ds : List Char) :
    decimalValue x (c :: ds) = decimalValue (x * 10 + (c.toNat - 48)) ds := rfl

theorem decimalValue_append (x : Nat) (ds es : List Char) :
    decimalValue x (ds ++ es) = decimalValue (decimalValue x ds) es := by
  simp [decimalValue, List.foldl_append]

theorem le_decimalValue (x : Nat) (ds : List Char) : x ≤ decimalValue x ds := by
  induction ds generalizing x with
  | nil => exact Nat.le_refl _
  | cons c ds ih =>
    rw [decimalValue_cons]
    exact Nat.le_trans (by omega) (ih _)

theorem isDigit_iff (c : Char) : isDigit c = true ↔ ¬ (c < '0' ∨ c > '9') := by
  simp only [isDigit, Bool.and_eq_true, decide_eq_true_eq, not_or, not_lt, gt_iff_lt]

theorem leadingInt_digits (ds : List Char) (x : Nat) (rest : List Char)
    (hds : ∀ c, c ∈ ds → isDigit c = true) (hval : decimalValue x ds ≤ maxInt64) :
    leadingInt (ds ++ rest) x = leadingInt rest (decimalValue x ds) := by
  induction ds generalizing x with
  | nil => rfl
  | cons c ds ih =>
    have hc := (isDigit_iff c).1 (hds c (List.mem_cons_self _ _))
    rw [decimalValue_cons] at hval
    have hstep : x * 10 + (c.toNat - 48) ≤ maxInt64 := Nat.le_trans (le_decimalValue _ _) hval
    have hx : ¬ x > maxInt64 / 10 := by
      have : x ≤ maxInt64 / 10 := (Nat.le_div_iff_mul_le (by decide)).2 (by omega)
      omega
    have hc' : (decide (c < '0') || decide (c > '9')) = false := by
      simpa using hc
    simp only [List.cons_append, leadingInt, hc', Bool.false_eq_true, if_false, hx,
      not_lt.2 hstep, decimalValue_cons]
    exact ih _ (fun c hc => hds c (List.mem_cons_of_mem _ hc)) hval

theorem leadingInt_stop (rest : List Char) (y : Nat) (hrest : noDigitAhead rest) :
    leadingInt rest y = some (y, rest) := by
  cases rest with
  | nil => rfl
  | cons c cs =>
    have hc := hrest c rfl
    have hc' : (decide (c < '0') || decide (c > '9')) = true := by
      have := (isDigit_iff c).not.1 (by simp [hc])
      simp only [not_not] at this
      simpa using this
    simp only [leadingInt, hc', if_true]

theorem leadingFraction_digits (ds : List Char) (x : Nat) (scale : float64) (rest : List Char)
    (hds : ∀ c, c ∈ ds → isDigit c = true) (hval : decimalValue x ds ≤ maxInt64) :
    leadingFraction (ds ++ rest) x scale false =
      leadingFraction rest (decimalValue x ds)
        ((fun s : float64 => s.mul (float64.ofNat 10))^[ds.length] scale) false := by
  induction ds generalizing x scale with
  | nil => simp [decimalValue]
  | cons c ds ih =>
    have hc := (isDigit_iff c).1 (hds c (List.mem_cons_self _ _))
    rw [decimalValue_cons] at hval
    have hstep : x * 10 + (c.toNat - 48) ≤ maxInt64 := Nat.le_trans (le_decimalValue _ _) hval
    have hx : ¬ x > maxInt64 / 10 := by
      have : x ≤ maxInt64 / 10 := (Nat.le_div_iff_mul_le (by decide)).2 (by omega)
      omega
    have hc' : (decide (c < '0') || decide (c > '9')) = false := by
      simpa using hc
    simp only [List.cons_append, leadingFraction, hc', Bool.false_eq_true, if_false, hx,
      not_lt.2 hstep, decimalValue_cons]
    have := ih (x * 10 + (c.toNat - 48)) (scale.mul (float64.ofNat 10))
      (fun c hc => hds c (List.mem_cons_of_mem _ hc)) hval
    rw [List.length_cons, Function.iterate_succ_apply]
    exact this

theorem leadingFraction_stop (rest : List Char) (y : Nat) (scale : float64) (ov : Bool)
    (hrest : noDigitAhead rest) :
    leadingFraction rest y scale ov = (y, scale, rest) := by
  cases rest with
  | nil => rfl
  | cons c cs =>
    have hc := hrest c rfl
    have hc' : (decide (c < '0') || decide (c > '9')) = true := by
      have := (isDigit_iff c).not.1 (by simp [hc])
      simp only [not_not] at this
      simpa using this
    simp only [leadingFraction, hc', if_true]


theorem digitChar_toNat (n : Nat) : (digitChar n).toNat = n % 10 + 48 := by
  have h : ∀ k, k < 10 → (Char.ofNat (k + 48)).toNat = k + 48 := by decide
  exact h (n % 10) (Nat.mod_lt _ (by decide))

theorem isDigit_digitChar (n : Nat) : isDigit (digitChar n) = true := by
  have h : ∀ k, k < 10 → isDigit (Char.ofNat (k + 48)) = true := by decide
  exact h (n % 10) (Nat.mod_lt _ (by decide))

theorem fmtIntLoop_append (fuel v : Nat) (buf : List Char) :
    fmtIntLoop fuel v buf = fmtIntLoop fuel v [] ++ buf := by
  induction fuel generalizing v buf with
  | zero => rfl
  | succ fuel ih =>
    simp only [fmtIntLoop]
    split
    · rw [ih _ (digitChar (v % 10) :: buf), ih _ [digitChar (v % 10)]]
      simp
    · rfl

theorem fmtIntLoop_digits (fuel v : Nat) (hv : v < 10 ^ fuel) :
    (∀ c, c ∈ fmtIntLoop fuel v [] → isDigit c = true) ∧
      (∀ x, decimalValue x (fmtIntLoop fuel v []) =
        x * 10 ^ (fmtIntLoop fuel v []).length + v) ∧
      (0 < v → fmtIntLoop fuel v [] ≠ []) := by
  induction fuel generalizing v with
  | zero =>
    have : v = 0 := by simpa using hv
    subst this
    simp [fmtIntLoop, decimalValue]
  | succ fuel ih =>
    simp only [fmtIntLoop]
    by_cases h0 : v > 0
    · have hv' : v / 10 < 10 ^ fuel := by
        rw [Nat.div_lt_iff_lt_mul (by decide)]
        rw [Nat.pow_succ] at hv
        exact hv
      obtain ⟨h1, h2, _⟩ := ih (v / 10) hv'
      simp only [h0, if_true]
      rw [fmtIntLoop_append]
      refine ⟨?_, ?_, ?_⟩
      · intro c hc
        rcases List.mem_append.1 hc with hc | hc
        · exact h1 c hc
        · simp only [List.mem_singleton] at hc
          rw [hc]
          exact isDigit_digitChar _
      · intro x
        rw [decimalValue_append, h2, decimalValue_cons, decimalValue_nil, digitChar_toNat]
        simp only [List.length_append, List.length_singleton, Nat.pow_succ]
        have := Nat.div_add_mod v 10
        have hm : v % 10 % 10 = v % 10 := Nat.mod_mod _ _
        rw [hm]
        generalize 10 ^ (fmtIntLoop fuel (v / 10) []).length = P
        have e1 : (x * P + v / 10) * 10 = x * (P * 10) + 10 * (v / 10) := by ring
        omega
      · intro _
        simp
    · have : v = 0 := by omega
      subst this
      simp [decimalValue]

theorem fmtInt_digits (v : Nat) (hv : v < 10 ^ 20) :
    (∀ buf, fmtInt buf v = fmtInt [] v ++ buf) ∧
      (∀ c, c ∈ fmtInt [] v → isDigit c = true) ∧
      (∀ x, decimalValue x (fmtInt [] v) = x * 10 ^ (fmtInt [] v).length + v) ∧
      fmtInt [] v ≠ [] := by
  by_cases h0 : v = 0
  · subst h0
    refine ⟨fun buf => by simp [fmtInt], ?_, ?_, by simp [fmtInt]⟩
    · intro c hc
      simp only [fmtInt, if_true, List.mem_singleton] at hc
      rw [hc]
      decide
    · intro x
      simp [fmtInt, decimalValue]
  · obtain ⟨h1, h2, h3⟩ := fmtIntLoop_digits 20 v hv
    simp only [fmtInt, h0, if_false]
    exact ⟨fun buf => fmtIntLoop_append 20 v buf, h1, h2, h3 (by omega)⟩

theorem mod_ten_pow_succ (v i : Nat) :
    v % 10 ^ (i + 1) = v % 10 + 10 * (v / 10 % 10 ^ i) := by
  rw [Nat.pow_succ', Nat.mod_mul]

theorem fmtFracLoop_true (i v : Nat) (buf : List Char) :
    ∃ D : List Char, D.length = i ∧ (∀ c, c ∈ D → isDigit c = true) ∧
      fmtFracLoop i v true buf = (D ++ buf, v / 10 ^ i, true) ∧
      ∀ x, decimalValue x D = x * 10 ^ i + v % 10 ^ i := by
  induction i generalizing v buf with
  | zero => exact ⟨[], rfl, by simp, by simp [fmtFracLoop], by simp [decimalValue, Nat.mod_one]⟩
  | succ i ih =>
    obtain ⟨D, hlen, hdig, heq, hval⟩ := ih (v / 10) (digitChar (v % 10) :: buf)
    refine ⟨D ++ [digitChar (v % 10)], by simp [hlen], ?_, ?_, ?_⟩
    · intro c hc
      rcases List.mem_append.1 hc with hc | hc
      · exact hdig c hc
      · simp only [List.mem_singleton] at hc
        rw [hc]
        exact isDigit_digitChar _
    · simp only [fmtFracLoop, Bool.true_or, if_true, heq, List.append_assoc,
        List.singleton_append, Nat.div_div_eq_div_mul, Nat.pow_succ']
    · intro x
      rw [decimalValue_append, hval, decimalValue_cons, decimalValue_nil, digitChar_toNat]
      have hm : v % 10 % 10 = v % 10 := Nat.mod_mod _ _
      rw [hm, mod_ten_pow_succ, Nat.pow_succ]
      generalize 10 ^ i = P
      generalize v / 10 % P = a
      have e1 : (x * P + a) * 10 = x * (P * 10) + 10 * a := by ring
      omega

theorem fmtFracLoop_false (i v : Nat) (buf : List Char) :
    (v % 10 ^ i = 0 ∧ fmtFracLoop i v false buf = (buf, v / 10 ^ i, false)) ∨
      (∃ D : List Char, D ≠ [] ∧ D.length ≤ i ∧ (∀ c, c ∈ D → isDigit c = true) ∧
        fmtFracLoop i v false buf = (D ++ buf, v / 10 ^ i, true) ∧
        decimalValue 0 D * 10 ^ (i - D.length) = v % 10 ^ i ∧ v % 10 ^ i ≠ 0) := by
  induction i generalizing v buf with
  | zero => exact Or.inl ⟨by simp [Nat.mod_one], by simp [fmtFracLoop]⟩
  | succ i ih =>
    by_cases hd : v % 10 = 0
    · have hstep : fmtFracLoop (i + 1) v false buf = fmtFracLoop i (v / 10) false buf := by
        simp [fmtFracLoop, hd]
      rcases ih (v / 10) buf with ⟨hz, heq⟩ | ⟨D, hne, hlen, hdig, heq, hval, hnz⟩
      · refine Or.inl ⟨?_, ?_⟩
        · rw [mod_ten_pow_succ, hd, hz]
        · rw [hstep, heq, Nat.div_div_eq_div_mul, Nat.pow_succ']
      · refine Or.inr ⟨D, hne, by omega, hdig, ?_, ?_, ?_⟩
        · rw [hstep, heq, Nat.div_div_eq_div_mul, Nat.pow_succ']
        · rw [mod_ten_pow_succ, hd, ← hval]
          have : i + 1 - D.length = (i - D.length) + 1 := by omega
          rw [this, Nat.pow_succ]
          ring
        · rw [mod_ten_pow_succ, hd]
          intro h
          apply hnz
          omega
    · obtain ⟨D, hlen, hdig, heq, hval⟩ :=
        fmtFracLoop_true i (v / 10) (digitChar (v % 10) :: buf)
      refine Or.inr ⟨D ++ [digitChar (v % 10)], by simp, by simp [hlen], ?_, ?_, ?_, ?_⟩
      · intro c hc
        rcases List.mem_append.1 hc with hc | hc
        · exact hdig c hc
        · simp only [List.mem_singleton] at hc
          rw [hc]
          exact isDigit_digitChar _
      · have hne : (v % 10 != 0) = true := by simpa using hd
        simp only [fmtFracLoop, Bool.false_or, hne, if_true, heq, List.append_assoc,
          List.singleton_append, Nat.div_div_eq_div_mul, Nat.pow_succ']
      · rw [decimalValue_append, hval, decimalValue_cons, decimalValue_nil, digitChar_toNat]
        have hm : v % 10 % 10 = v % 10 := Nat.mod_mod _ _
        simp only [List.length_append, List.length_singleton, hlen, Nat.sub_self, Nat.pow_zero,
          Nat.mul_one, hm]
        rw [mod_ten_pow_succ]
        generalize v / 10 % 10 ^ i = a
        omega
      · rw [mod_ten_pow_succ]
        omega


theorem fractionPart_plain (s1 : List Char) (hnodot : s1.head? ≠ some '.') :
    fractionPart s1 = (0, float64.ofNat 1, s1, false) := by
  unfold fractionPart
  split
  · simp at hnodot
  · rfl

theorem fractionPart_dot (s2 : List Char) :
    fractionPart ('.' :: s2) =
      ((leadingFraction s2 0 (float64.ofNat 1) false).1,
        (leadingFraction s2 0 (float64.ofNat 1) false).2.1,
        (leadingFraction s2 0 (float64.ofNat 1) false).2.2,
        s2.length != (leadingFraction s2 0 (float64.ofNat 1) false).2.2.length) := by
  simp [fractionPart]

theorem parseLoop_step_plain (orig : String) (fuel : Nat) (c : Char) (cs : List Char)
    (d0 v unit : Nat) (u s1 s4 : List Char)
    (hc : startsNumber c = true)
    (hint : leadingInt (c :: cs) 0 = some (v, s1))
    (hpre : (c :: cs).length ≠ s1.length)
    (hnodot : s1.head? ≠ some '.')
    (hspan : s1.span (fun c => !startsNumber c) = (u, s4))
    (hu : u ≠ [])
    (hunit : unitMap (String.mk u) = some unit)
    (hv : v ≤ maxInt64 / unit) (hv1 : v * unit ≤ maxInt64)
    (hd : d0 + v * unit ≤ maxInt64) :
    parseLoop orig (fuel + 1) (c :: cs) d0 = parseLoop orig fuel s4 (d0 + v * unit) := by
  have hpre' : ((c :: cs).length != s1.length) = true := by simpa using hpre
  have hu' : u.isEmpty = false := by
    cases u with
    | nil => exact absurd rfl hu
    | cons _ _ => rfl
  simp only [parseLoop, hc, Bool.not_true, Bool.false_eq_true, if_false, hint,
    fractionPart_plain s1 hnodot, hpre', Bool.false_and, hspan, hu', hunit, not_lt.2 hv,
    not_lt.2 hv1, not_lt.2 hd, Nat.lt_irrefl, gt_iff_lt]

theorem parseLoop_step_frac (orig : String) (fuel : Nat) (c : Char) (cs : List Char)
    (d0 v unit f : Nat) (scale : float64) (u s2 s3 s4 : List Char)
    (hc : startsNumber c = true)
    (hint : leadingInt (c :: cs) 0 = some (v, '.' :: s2))
    (hpre : (c :: cs).length ≠ (s2.length + 1))
    (hfracs : leadingFraction s2 0 (float64.ofNat 1) false = (f, scale, s3))
    (hspan : s3.span (fun c => !startsNumber c) = (u, s4))
    (hu : u ≠ [])
    (hunit : unitMap (String.mk u) = some unit)
    (hf : 0 < f)
    (hv : v ≤ maxInt64 / unit)
    (hv1 : v * unit + fractionNanos f unit scale ≤ maxInt64)
    (hd : d0 + (v * unit + fractionNanos f unit scale) ≤ maxInt64) :
    parseLoop orig (fuel + 1) (c :: cs) d0 =
      parseLoop orig fuel s4 (d0 + (v * unit + fractionNanos f unit scale)) := by
  have hpre' : ((c :: cs).length != ('.' :: s2).length) = true := by simpa using hpre
  have hu' : u.isEmpty = false := by
    cases u with
    | nil => exact absurd rfl hu
    | cons _ _ => rfl
  simp only [parseLoop, hc, Bool.not_true, Bool.false_eq_true, if_false, hint,
    fractionPart_dot, hfracs, hpre', Bool.false_and, hspan, hu', hunit, not_lt.2 hv,
    not_lt.2 hv1, not_lt.2 hd, hf, if_true, gt_iff_lt]


theorem startsNumber_of_isDigit (c : Char) (h : isDigit c = true) : startsNumber c = true := by
  simp only [isDigit] at h
  simp [startsNumber, h]

theorem isDigit_of_not_startsNumber (c : Char) (h : startsNumber c = false) :
    isDigit c = false := by
  cases hd : isDigit c with
  | false => rfl
  | true => rw [startsNumber_of_isDigit c hd] at h; cases h

theorem ne_dot_of_not_startsNumber (c : Char) (h : startsNumber c = false) : c ≠ '.' := by
  intro hc
  subst hc
  simp [startsNumber] at h

theorem span_unit (U rest : List Char) (hU : ∀ c, c ∈ U → startsNumber c = false)
    (hrest : numberAhead rest) :
    (U ++ rest).span (fun c => !startsNumber c) = (U, rest) := by
  rw [List.span_eq_take_drop]
  induction U with
  | nil =>
    cases rest with
    | nil => rfl
    | cons c cs =>
      have := hrest c rfl
      simp [List.takeWhile, List.dropWhile, this]
  | cons u U ih =>
    have hu := hU u (List.mem_cons_self _ _)
    have := ih (fun c hc => hU c (List.mem_cons_of_mem _ hc))
    simp only [Prod.mk.injEq] at this
    simp [List.takeWhile, List.dropWhile, hu, this.1, this.2]

/-- One component without fraction digits: the digits of `q`, the unit, and a
rest that is empty or goes on with a number. -/
theorem parseLoop_component_plain (orig : String) (fuel d0 q unit : Nat) (U rest : List Char)
    (hq : q < 10 ^ 20)
    (hU : ∀ c, c ∈ U → startsNumber c = false) (hUne : U ≠ [])
    (hunit : unitMap (String.mk U) = some unit)
    (hrest : numberAhead rest)
    (hunit0 : 0 < unit)
    (hd : d0 + q * unit ≤ maxInt64) :
    parseLoop orig (fuel + 1) (fmtInt (U ++ rest) q) d0 =
      parseLoop orig fuel rest (d0 + q * unit) := by
  obtain ⟨happ, hdig, hval, hne⟩ := fmtInt_digits q hq
  rw [happ (U ++ rest)]
  obtain ⟨c, cs, hD⟩ := List.exists_cons_of_ne_nil hne
  obtain ⟨u0, U', hUeq⟩ := List.exists_cons_of_ne_nil hUne
  have hu0 : startsNumber u0 = false := hU u0 (by rw [hUeq]; exact List.mem_cons_self _ _)
  have hqv : q * unit ≤ maxInt64 := by omega
  have hqle : q ≤ maxInt64 := Nat.le_trans (Nat.le_mul_of_pos_right q hunit0) hqv
  have hv0 : decimalValue 0 (fmtInt [] q) = q := by
    rw [hval 0]
    simp
  have hint : leadingInt (fmtInt [] q ++ (U ++ rest)) 0 = some (q, U ++ rest) := by
    rw [leadingInt_digits _ _ _ hdig (by rw [hv0]; exact hqle), hv0]
    apply leadingInt_stop
    intro c hc
    rw [hUeq] at hc
    simp only [List.cons_append, List.head?_cons, Option.some.injEq] at hc
    rw [← hc]
    exact isDigit_of_not_startsNumber u0 hu0
  have hcd : startsNumber c = true :=
    startsNumber_of_isDigit c (hdig c (by rw [hD]; exact List.mem_cons_self _ _))
  rw [hD] at hint ⊢
  refine parseLoop_step_plain orig fuel c (cs ++ (U ++ rest)) d0 q unit U (U ++ rest) rest hcd
    hint ?_ ?_ (span_unit U rest hU hrest) hUne hunit ?_ hqv hd
  · simp only [List.length_cons, List.length_append]
    omega
  · rw [hUeq]
    simp only [List.cons_append, List.head?_cons, ne_eq, Option.some.injEq]
    exact ne_dot_of_not_startsNumber u0 hu0
  · exact (Nat.le_div_iff_mul_le hunit0).2 hqv

theorem bitLength_bounds (fuel n : Nat) (hfuel : n ≤ fuel) (hn : 0 < n) :
    2 ^ (bitLength fuel n - 1) ≤ n ∧ n < 2 ^ bitLength fuel n ∧ 0 < bitLength fuel n := by
  induction fuel generalizing n with
  | zero => omega
  | succ fuel ih =>
    simp only [bitLength, Nat.ne_of_gt hn, if_false]
    by_cases h1 : n / 2 = 0
    · have hn1 : n = 1 := by omega
      subst hn1
      cases fuel <;> simp [bitLength]
    · obtain ⟨h2, h3, h4⟩ := ih (n / 2) (by omega) (by omega)
      refine ⟨?_, ?_, by omega⟩
      · have : bitLength fuel (n / 2) + 1 - 1 = (bitLength fuel (n / 2) - 1) + 1 := by omega
        rw [this, Nat.pow_succ]
        omega
      · rw [Nat.pow_succ]
        omega

theorem roundHalfEven_one (n : Nat) : roundHalfEven n 1 = n := by
  simp [roundHalfEven, Nat.mod_one]

theorem float64.round_exact (n : Nat) (hn : n < 2 ^ 53) :
    float64.round n 1 = { num := n, den := 1 } := by
  by_cases h0 : n = 0
  · subst h0
    rfl
  · obtain ⟨h1, h2, h3⟩ := bitLength_bounds n n (Nat.le_refl _) (by omega)
    have hb : bitLength 1 1 = 1 := by decide
    have hL : bitLength n n ≤ 53 := by
      by_contra hcon
      have : 2 ^ 53 ≤ 2 ^ (bitLength n n - 1) :=
        Nat.pow_le_pow_right (by decide) (by omega)
      omega
    have hcond : 1 * 2 ^ (bitLength n n - 1) ≤ n * 2 ^ (1 - bitLength n n) := by
      have : 1 - bitLength n n = 0 := by omega
      rw [this]
      omega
    simp only [float64.round, h0, if_false, hb, hcond, if_true]
    by_cases h53 : bitLength n n = 53
    · simp [h53, roundHalfEven_one]
    · have hneg : ¬ (0 : Int) ≤ (bitLength n n : Int) - ((1 : Nat) : Int) - 52 := by omega
      have hk : (-((bitLength n n : Int) - ((1 : Nat) : Int) - 52)).toNat = 53 - bitLength n n := by
        omega
      simp only [hneg, if_false, hk, roundHalfEven_one, float64.reduce]
      have hg : Nat.gcd (n * 2 ^ (53 - bitLength n n)) (2 ^ (53 - bitLength n n)) =
          2 ^ (53 - bitLength n n) := Nat.gcd_eq_right (Nat.dvd_mul_left _ _)
      have hpos : 0 < 2 ^ (53 - bitLength n n) := Nat.pow_pos (by decide)
      rw [hg, Nat.mul_div_cancel _ hpos, Nat.div_self hpos]

theorem scale_iterate :
    ∀ k, k ≤ 9 → (fun s : float64 => s.mul (float64.ofNat 10))^[k] (float64.ofNat 1) =
      { num := 10 ^ k, den := 1 } := by
  decide

theorem unit_div_scale :
    ∀ p, p ≤ 9 → ∀ k, k ≤ p →
      (float64.ofNat (10 ^ p)).div { num := 10 ^ k, den := 1 } =
        { num := 10 ^ (p - k), den := 1 } := by
  decide

/-- The nanoseconds of a fraction of `k` digits under a unit of `10^p`
nanoseconds, `k ≤ p ≤ 9`: every `float64` operation involved is exact. -/
theorem fractionNanos_pow (f p k : Nat) (hp : p ≤ 9) (hk : k ≤ p)
    (hf : f * 10 ^ (p - k) < 10 ^ 9) :
    fractionNanos f (10 ^ p) { num := 10 ^ k, den := 1 } = f * 10 ^ (p - k) := by
  have hpos : 0 < 10 ^ (p - k) := Nat.pow_pos (by decide)
  have h9 : (10 : Nat) ^ 9 < 2 ^ 53 := by norm_num
  have hf53 : f < 2 ^ 53 := by
    have : f ≤ f * 10 ^ (p - k) := Nat.le_mul_of_pos_right f hpos
    omega
  rw [fractionNanos, unit_div_scale p hp k hk, float64.ofNat, float64.round_exact f hf53]
  simp only [float64.mul, Nat.mul_one]
  rw [float64.round_exact _ (by omega)]
  simp [float64.toNat]

theorem numberAhead_nil : numberAhead [] := by
  intro c hc
  cases hc

theorem fmtFrac_cases (U : List Char) (n p : Nat) :
    (n % 10 ^ p = 0 ∧ (fmtFrac U n p).1 = U) ∨
      (∃ D : List Char, D ≠ [] ∧ D.length ≤ p ∧ (∀ c, c ∈ D → isDigit c = true) ∧
        (fmtFrac U n p).1 = '.' :: (D ++ U) ∧
        decimalValue 0 D * 10 ^ (p - D.length) = n % 10 ^ p ∧ n % 10 ^ p ≠ 0) := by
  rcases fmtFracLoop_false p n U with ⟨hz, heq⟩ | ⟨D, hne, hlen, hdig, heq, hval, hnz⟩
  · exact Or.inl ⟨hz, by simp [fmtFrac, heq]⟩
  · exact Or.inr ⟨D, hne, hlen, hdig, by simp [fmtFrac, heq], hval, hnz⟩

theorem fmtFrac_snd (U : List Char) (n p : Nat) : (fmtFrac U n p).2 = n / 10 ^ p := by
  rcases fmtFracLoop_false p n U with ⟨_, heq⟩ | ⟨D, _, _, _, heq, _, _⟩
  · simp [fmtFrac, heq]
  · simp [fmtFrac, heq]

/-- The last component of a duration text: the digits of `q`, the fraction
that stands for `n % 10^p`, and the unit of `10^p` nanoseconds. -/
theorem parseLoop_tail (orig : String) (fuel d0 p n q : Nat) (U : List Char)
    (hp : p ≤ 9) (hq : q < 10 ^ 20)
    (hU : ∀ c, c ∈ U → startsNumber c = false) (hUne : U ≠ [])
    (hunit : unitMap (String.mk U) = some (10 ^ p))
    (hd : d0 + (q * 10 ^ p + n % 10 ^ p) ≤ maxInt64) :
    parseLoop orig (fuel + 2) (fmtInt (fmtFrac U n p).1 q) d0 =
      Except.ok (d0 + (q * 10 ^ p + n % 10 ^ p)) := by
  have hpos : 0 < 10 ^ p := Nat.pow_pos (by decide)
  rcases fmtFrac_cases U n p with ⟨hz, heq⟩ | ⟨D, hne, hlen, hdig, heq, hval, hnz⟩
  · rw [heq, hz, Nat.add_zero]
    have := parseLoop_component_plain orig (fuel + 1) d0 q (10 ^ p) U [] hq hU hUne hunit
      numberAhead_nil hpos (by omega)
    rw [List.append_nil] at this
    rw [this]
    rfl
  · obtain ⟨happ, hqdig, hqval, hqne⟩ := fmtInt_digits q hq
    rw [heq, happ]
    obtain ⟨c, cs, hD⟩ := List.exists_cons_of_ne_nil hqne
    obtain ⟨u0, U', hUeq⟩ := List.exists_cons_of_ne_nil hUne
    have hu0 : startsNumber u0 = false := hU u0 (by rw [hUeq]; exact List.mem_cons_self _ _)
    have hqv : q * 10 ^ p ≤ maxInt64 := by omega
    have hqle : q ≤ maxInt64 := Nat.le_trans (Nat.le_mul_of_pos_right q hpos) hqv
    have hv0 : decimalValue 0 (fmtInt [] q) = q := by
      rw [hqval 0]
      simp
    have hint : leadingInt (fmtInt [] q ++ '.' :: (D ++ U)) 0 = some (q, '.' :: (D ++ U)) := by
      rw [leadingInt_digits _ _ _ hqdig (by rw [hv0]; exact hqle), hv0]
      apply leadingInt_stop
      intro c hc
      simp only [List.head?_cons, Option.some.injEq] at hc
      rw [← hc]
      decide
    have hfle : decimalValue 0 D ≤ n % 10 ^ p := by
      rw [← hval]
      exact Nat.le_mul_of_pos_right _ (Nat.pow_pos (by decide))
    have hfrac : leadingFraction (D ++ U) 0 (float64.ofNat 1) false =
        (decimalValue 0 D, { num := 10 ^ D.length, den := 1 }, U) := by
      rw [leadingFraction_digits D 0 _ U hdig (by omega), scale_iterate D.length (by omega)]
      apply leadingFraction_stop
      intro c hc
      rw [hUeq] at hc
      simp only [List.head?_cons, Option.some.injEq] at hc
      rw [← hc]
      exact isDigit_of_not_startsNumber u0 hu0
    have hcd : startsNumber c = true :=
      startsNumber_of_isDigit c (hqdig c (by rw [hD]; exact List.mem_cons_self _ _))
    have hnanos : fractionNanos (decimalValue 0 D) (10 ^ p) { num := 10 ^ D.length, den := 1 } =
        n % 10 ^ p := by
      have hlt : n % 10 ^ p < 10 ^ 9 :=
        Nat.lt_of_lt_of_le (Nat.mod_lt _ hpos) (Nat.pow_le_pow_right (by decide) hp)
      rw [fractionNanos_pow _ _ _ hp hlen (by rw [hval]; exact hlt), hval]
    have hspan := span_unit U [] hU numberAhead_nil
    rw [List.append_nil] at hspan
    have hfpos : 0 < decimalValue 0 D := by
      rcases Nat.eq_zero_or_pos (decimalValue 0 D) with h0 | h0
      · rw [h0, Nat.zero_mul] at hval
        exact absurd hval.symm hnz
      · exact h0
    rw [hD] at hint ⊢
    have hstep := parseLoop_step_frac orig (fuel + 1) c (cs ++ '.' :: (D ++ U)) d0 q (10 ^ p)
      (decimalValue 0 D) { num := 10 ^ D.length, den := 1 } U (D ++ U) U [] hcd hint
      (by simp only [List.length_cons, List.length_append]; omega)
      hfrac hspan hUne hunit hfpos ((Nat.le_div_iff_mul_le hpos).2 hqv)
      (by rw [hnanos]; omega) (by rw [hnanos]; omega)
    rw [List.cons_append, hstep, hnanos]
    rfl

theorem numberAhead_fmtInt (buf : List Char) (q : Nat) (hq : q < 10 ^ 20) :
    numberAhead (fmtInt buf q) := by
  obtain ⟨happ, hdig, _, hne⟩ := fmtInt_digits q hq
  rw [happ]
  obtain ⟨c, cs, hD⟩ := List.exists_cons_of_ne_nil hne
  intro x hx
  rw [hD] at hx
  simp only [List.cons_append, List.head?_cons, Option.some.injEq] at hx
  rw [← hx]
  exact startsNumber_of_isDigit c (hdig c (by rw [hD]; exact List.mem_cons_self _ _))

theorem length_fmtInt (buf : List Char) (q : Nat) (hq : q < 10 ^ 20) :
    buf.length + 1 ≤ (fmtInt buf q).length := by
  obtain ⟨happ, _, _, hne⟩ := fmtInt_digits q hq
  rw [happ]
  have : 0 < (fmtInt [] q).length := List.length_pos.2 hne
  simp only [List.length_append]
  omega

theorem length_fmtFrac (U : List Char) (n p : Nat) :
    U.length ≤ (fmtFrac U n p).1.length := by
  rcases fmtFrac_cases U n p with ⟨_, heq⟩ | ⟨D, _, _, _, heq, _, _⟩
  · rw [heq]
  · rw [heq]
    simp only [List.length_cons, List.length_append]
    omega

/-- The first character of a duration text written for `q`: a digit. -/
theorem head_fmtInt (buf : List Char) (q : Nat) (hq : q < 10 ^ 20) :
    ∃ c cs, fmtInt buf q = c :: cs ∧ isDigit c = true := by
  obtain ⟨happ, hdig, _, hne⟩ := fmtInt_digits q hq
  obtain ⟨c, cs, hD⟩ := List.exists_cons_of_ne_nil hne
  exact ⟨c, cs ++ buf, by rw [happ, hD]; rfl, hdig c (by rw [hD]; exact List.mem_cons_self _ _)⟩

/-- A duration text of one component with fraction: digits of `u / 10^p`, the
fraction for `u % 10^p`, and the unit. -/
theorem parseLoop_single (orig : String) (u p : Nat) (U : List Char) (hp : p ≤ 9)
    (hu : u ≤ maxInt64)
    (hU : ∀ c, c ∈ U → startsNumber c = false) (hUne : U ≠ [])
    (hunit : unitMap (String.mk U) = some (10 ^ p)) (fuel : Nat)
    (hfuel : (fmtInt (fmtFrac U u p).1 (fmtFrac U u p).2).length ≤ fuel) :
    parseLoop orig fuel (fmtInt (fmtFrac U u p).1 (fmtFrac U u p).2) 0 = Except.ok u := by
  have hmax : maxInt64 = 9223372036854775807 := by decide
  have hq : u / 10 ^ p < 10 ^ 20 := by
    have : u / 10 ^ p ≤ u := Nat.div_le_self _ _
    have h20 : (10 : Nat) ^ 20 = 100000000000000000000 := by norm_num
    omega
  rw [fmtFrac_snd] at hfuel ⊢
  have hlen1 := length_fmtInt (fmtFrac U u p).1 (u / 10 ^ p) hq
  have hlen2 := length_fmtFrac U u p
  have hUlen : 0 < U.length := List.length_pos.2 hUne
  obtain ⟨k, rfl⟩ : ∃ k, fuel = k + 2 := ⟨fuel - 2, by omega⟩
  have hsum : u / 10 ^ p * 10 ^ p + u % 10 ^ p = u := Nat.div_add_mod' u (10 ^ p)
  have := parseLoop_tail orig k 0 p u (u / 10 ^ p) U hp hq hU hUne hunit (by omega)
  rw [this, hsum, Nat.zero_add]

theorem parseLoop_durationBody (orig : String) (u : Nat) (hu : u ≤ maxInt64) (fuel : Nat)
    (hfuel : (durationBody u).length ≤ fuel) :
    parseLoop orig fuel (durationBody u) 0 = Except.ok u := by
  have hmax : maxInt64 = 9223372036854775807 := by decide
  have hUs : ∀ c, c ∈ ['s'] → startsNumber c = false := by decide
  have hUns : ∀ c, c ∈ ['n', 's'] → startsNumber c = false := by decide
  have hUus : ∀ c, c ∈ ['µ', 's'] → startsNumber c = false := by decide
  have hUms : ∀ c, c ∈ ['m', 's'] → startsNumber c = false := by decide
  have hUm : ∀ c, c ∈ ['m'] → startsNumber c = false := by decide
  have hUh : ∀ c, c ∈ ['h'] → startsNumber c = false := by decide
  by_cases h9 : u < 1000000000
  · by_cases h0 : u = 0
    · subst h0
      have hb : durationBody 0 = ['0', 's'] := by decide
      rw [hb] at hfuel ⊢
      obtain ⟨k, rfl⟩ : ∃ k, fuel = k + 2 := ⟨fuel - 2, by simp at hfuel; omega⟩
      have := parseLoop_component_plain orig (k + 1) 0 0 1000000000 ['s'] [] (by decide) hUs
        (by decide) (by decide) numberAhead_nil (by decide) (by decide)
      have hf : fmtInt (['s'] ++ []) 0 = ['0', 's'] := by decide
      rw [hf] at this
      rw [this]
      rfl
    · by_cases h3 : u < 1000
      · have hb : durationBody u =
            fmtInt (fmtFrac ['n', 's'] u 0).1 (fmtFrac ['n', 's'] u 0).2 := by
          simp [durationBody, h9, h0, h3]
        rw [hb] at hfuel ⊢
        exact parseLoop_single orig u 0 ['n', 's'] (by decide) hu hUns (by decide) (by decide) fuel hfuel
      · by_cases h6 : u < 1000000
        · have hb : durationBody u =
              fmtInt (fmtFrac ['µ', 's'] u 3).1 (fmtFrac ['µ', 's'] u 3).2 := by
            simp [durationBody, h9, h0, h3, h6]
          rw [hb] at hfuel ⊢
          exact parseLoop_single orig u 3 ['µ', 's'] (by decide) hu hUus (by decide) (by decide) fuel hfuel
        · have hb : durationBody u =
              fmtInt (fmtFrac ['m', 's'] u 6).1 (fmtFrac ['m', 's'] u 6).2 := by
            simp [durationBody, h9, h0, h3, h6]
          rw [hb] at hfuel ⊢
          exact parseLoop_single orig u 6 ['m', 's'] (by decide) hu hUms (by decide) (by decide) fuel hfuel
  · have h60 : u / 10 ^ 9 % 60 < 10 ^ 20 := by
      have : u / 10 ^ 9 % 60 < 60 := Nat.mod_lt _ (by decide)
      have h20 : (10 : Nat) ^ 20 = 100000000000000000000 := by norm_num
      omega
    have hm60 : u / 10 ^ 9 / 60 % 60 < 10 ^ 20 := by
      have : u / 10 ^ 9 / 60 % 60 < 60 := Nat.mod_lt _ (by decide)
      have h20 : (10 : Nat) ^ 20 = 100000000000000000000 := by norm_num
      omega
    have hh : u / 10 ^ 9 / 60 / 60 < 10 ^ 20 := by
      have h1 : u / 10 ^ 9 / 60 / 60 ≤ u :=
        Nat.le_trans (Nat.div_le_self _ _)
          (Nat.le_trans (Nat.div_le_self _ _) (Nat.div_le_self _ _))
      have h20 : (10 : Nat) ^ 20 = 100000000000000000000 := by norm_num
      omega
    have hp9 : (10 : Nat) ^ 9 = 1000000000 := by norm_num
    have hlenF := length_fmtFrac ['s'] u 9
    have hlen1 := length_fmtInt (fmtFrac ['s'] u 9).1 (u / 10 ^ 9 % 60) h60
    have hsnd := fmtFrac_snd ['s'] u 9
    by_cases hU1 : u / 10 ^ 9 / 60 > 0
    · by_cases hU2 : u / 10 ^ 9 / 60 / 60 > 0
      · have hb : durationBody u =
            fmtInt (['h'] ++ fmtInt (['m'] ++ fmtInt (fmtFrac ['s'] u 9).1 (u / 10 ^ 9 % 60))
              (u / 10 ^ 9 / 60 % 60)) (u / 10 ^ 9 / 60 / 60) := by
          have hU1' : 0 < u / 1000000000 / 60 := by rw [← hp9]; exact hU1
          have hU2' : 0 < u / 1000000000 / 60 / 60 := by rw [← hp9]; exact hU2
          simp [durationBody, h9, hsnd, hU1', hU2']
        rw [hb] at hfuel ⊢
        have hlen2 := length_fmtInt
          (['m'] ++ fmtInt (fmtFrac ['s'] u 9).1 (u / 10 ^ 9 % 60)) (u / 10 ^ 9 / 60 % 60) hm60
        have hlen3 := length_fmtInt
          (['h'] ++ fmtInt (['m'] ++ fmtInt (fmtFrac ['s'] u 9).1 (u / 10 ^ 9 % 60))
            (u / 10 ^ 9 / 60 % 60)) (u / 10 ^ 9 / 60 / 60) hh
        simp only [List.length_append, List.length_singleton] at hlen2 hlen3 hlenF
        obtain ⟨k, rfl⟩ : ∃ k, fuel = k + 2 + 1 + 1 := ⟨fuel - 4, by omega⟩
        rw [parseLoop_component_plain orig (k + 2 + 1) 0 (u / 10 ^ 9 / 60 / 60) 3600000000000
          ['h'] _ hh hUh (by decide) (by decide) (numberAhead_fmtInt _ _ hm60) (by decide)
          (by omega)]
        rw [parseLoop_component_plain orig (k + 2) _ (u / 10 ^ 9 / 60 % 60) 60000000000
          ['m'] _ hm60 hUm (by decide) (by decide) (numberAhead_fmtInt _ _ h60) (by decide)
          (by omega)]
        rw [parseLoop_tail orig k _ 9 u (u / 10 ^ 9 % 60) ['s'] (by decide) h60 hUs (by decide) (by decide)
          (by omega)]
        congr 1
        omega
      · have hb : durationBody u =
            fmtInt (['m'] ++ fmtInt (fmtFrac ['s'] u 9).1 (u / 10 ^ 9 % 60))
              (u / 10 ^ 9 / 60 % 60) := by
          have hU1' : 0 < u / 1000000000 / 60 := by rw [← hp9]; exact hU1
          have hU2' : ¬ 0 < u / 1000000000 / 60 / 60 := by rw [← hp9]; exact hU2
          simp [durationBody, h9, hsnd, hU1', hU2']
        rw [hb] at hfuel ⊢
        have hlen2 := length_fmtInt
          (['m'] ++ fmtInt (fmtFrac ['s'] u 9).1 (u / 10 ^ 9 % 60)) (u / 10 ^ 9 / 60 % 60) hm60
        simp only [List.length_append, List.length_singleton] at hlen2 hlenF
        obtain ⟨k, rfl⟩ : ∃ k, fuel = k + 2 + 1 := ⟨fuel - 3, by omega⟩
        rw [parseLoop_component_plain orig (k + 2) 0 (u / 10 ^ 9 / 60 % 60) 60000000000
          ['m'] _ hm60 hUm (by decide) (by decide) (numberAhead_fmtInt _ _ h60) (by decide)
          (by omega)]
        rw [parseLoop_tail orig k _ 9 u (u / 10 ^ 9 % 60) ['s'] (by decide) h60 hUs (by decide) (by decide)
          (by omega)]
        congr 1
        omega
    · have hb : durationBody u = fmtInt (fmtFrac ['s'] u 9).1 (u / 10 ^ 9 % 60) := by
        have hU1' : ¬ 0 < u / 1000000000 / 60 := by rw [← hp9]; exact hU1
        simp [durationBody, h9, hsnd, hU1']
      rw [hb] at hfuel ⊢
      simp only [List.length_singleton] at hlenF
      obtain ⟨k, rfl⟩ : ∃ k, fuel = k + 2 := ⟨fuel - 2, by omega⟩
      rw [parseLoop_tail orig k _ 9 u (u / 10 ^ 9 % 60) ['s'] (by decide) h60 hUs (by decide) (by decide)
        (by omega)]
      congr 1
      omega

theorem durationBody_shape (u : Nat) (hu : u ≤ maxInt64) :
    ∃ buf q, q < 10 ^ 20 ∧ buf ≠ [] ∧ durationBody u = fmtInt buf q := by
  have hmax : maxInt64 = 9223372036854775807 := by decide
  have h20 : (10 : Nat) ^ 20 = 100000000000000000000 := by norm_num
  have hfrac : ∀ (U : List Char) (p : Nat), U ≠ [] → (fmtFrac U u p).1 ≠ [] := by
    intro U p hU
    have h1 := length_fmtFrac U u p
    have h2 : 0 < U.length := List.length_pos.2 hU
    exact List.length_pos.1 (by omega)
  have hsnd : ∀ (U : List Char) (p : Nat), (fmtFrac U u p).2 < 10 ^ 20 := by
    intro U p
    rw [fmtFrac_snd]
    have : u / 10 ^ p ≤ u := Nat.div_le_self _ _
    omega
  by_cases h9 : u < 1000000000
  · by_cases h0 : u = 0
    · subst h0
      exact ⟨['s'], 0, by decide, by decide, by decide⟩
    · by_cases h3 : u < 1000
      · exact ⟨_, _, hsnd ['n', 's'] 0, hfrac ['n', 's'] 0 (by decide),
          by simp [durationBody, h9, h0, h3]⟩
      · by_cases h6 : u < 1000000
        · exact ⟨_, _, hsnd ['µ', 's'] 3, hfrac ['µ', 's'] 3 (by decide),
            by simp [durationBody, h9, h0, h3, h6]⟩
        · exact ⟨_, _, hsnd ['m', 's'] 6, hfrac ['m', 's'] 6 (by decide),
            by simp [durationBody, h9, h0, h3, h6]⟩
  · have hq1 : (fmtFrac ['s'] u 9).2 % 60 < 10 ^ 20 := by
      have := Nat.mod_lt (fmtFrac ['s'] u 9).2 (show 60 > 0 by decide)
      omega
    have hq2 : (fmtFrac ['s'] u 9).2 / 60 % 60 < 10 ^ 20 := by
      have := Nat.mod_lt ((fmtFrac ['s'] u 9).2 / 60) (show 60 > 0 by decide)
      omega
    have hq3 : (fmtFrac ['s'] u 9).2 / 60 / 60 < 10 ^ 20 := by
      have h1 := hsnd ['s'] 9
      have h2 : (fmtFrac ['s'] u 9).2 / 60 / 60 ≤ (fmtFrac ['s'] u 9).2 :=
        Nat.le_trans (Nat.div_le_self _ _) (Nat.div_le_self _ _)
      omega
    by_cases hU1 : 0 < (fmtFrac ['s'] u 9).2 / 60
    · by_cases hU2 : 0 < (fmtFrac ['s'] u 9).2 / 60 / 60
      · have hb : durationBody u = fmtInt ('h' :: fmtInt ('m' :: fmtInt (fmtFrac ['s'] u 9).1
            ((fmtFrac ['s'] u 9).2 % 60)) ((fmtFrac ['s'] u 9).2 / 60 % 60))
            ((fmtFrac ['s'] u 9).2 / 60 / 60) := by
          simp only [durationBody, h9, if_false, gt_iff_lt, hU1, hU2, if_true]
        exact ⟨_, _, hq3, List.cons_ne_nil _ _, hb⟩
      · have hb : durationBody u = fmtInt ('m' :: fmtInt (fmtFrac ['s'] u 9).1
            ((fmtFrac ['s'] u 9).2 % 60)) ((fmtFrac ['s'] u 9).2 / 60 % 60) := by
          simp only [durationBody, h9, if_false, gt_iff_lt, hU1, hU2, if_true]
        exact ⟨_, _, hq2, List.cons_ne_nil _ _, hb⟩
    · exact ⟨_, _, hq1, hfrac ['s'] 9 (by decide),
        by simp only [durationBody, h9, if_false, gt_iff_lt, hU1]⟩

/-- The text of a magnitude starts with a digit and has at least two
characters. -/
theorem durationBody_head (u : Nat) (hu : u ≤ maxInt64) :
    ∃ c c1 cs, durationBody u = c :: c1 :: cs ∧ isDigit c = true := by
  obtain ⟨buf, q, hq, hbuf, hb⟩ := durationBody_shape u hu
  obtain ⟨happ, hdig, _, hne⟩ := fmtInt_digits q hq
  obtain ⟨c, cs, hD⟩ := List.exists_cons_of_ne_nil hne
  obtain ⟨b, bs, hB⟩ := List.exists_cons_of_ne_nil hbuf
  have hc : isDigit c = true := hdig c (by rw [hD]; exact List.mem_cons_self _ _)
  rw [hb, happ, hD, hB]
  cases cs with
  | nil => exact ⟨c, b, bs, rfl, hc⟩
  | cons c1 cs => exact ⟨c, c1, cs ++ b :: bs, rfl, hc⟩

theorem ParseDuration_of_body_pos (s : String) (c c1 : Char) (cs : List Char) (u : Nat)
    (hdata : s.data = c :: c1 :: cs) (hc : isDigit c = true)
    (hparse : parseLoop s (c :: c1 :: cs).length (c :: c1 :: cs) 0 = Except.ok u) :
    ParseDuration s = ((u : Int), none) := by
  have hminus : c ≠ '-' := by
    intro h
    subst h
    simp [isDigit] at hc
  have hplus : c ≠ '+' := by
    intro h
    subst h
    simp [isDigit] at hc
  have hsigned : consumeSign s.data = (false, c :: c1 :: cs) := by
    rw [hdata]
    unfold consumeSign
    split
    · rename_i heq
      simp only [List.cons.injEq] at heq
      exact absurd heq.1 hminus
    · rename_i heq
      simp only [List.cons.injEq] at heq
      exact absurd heq.1 hplus
    · rfl
  simp only [List.length_cons] at hparse
  simp [ParseDuration, hsigned, hparse]

theorem ParseDuration_of_body_neg (s : String) (c c1 : Char) (cs : List Char) (u : Nat)
    (hdata : s.data = '-' :: c :: c1 :: cs)
    (hparse : parseLoop s (c :: c1 :: cs).length (c :: c1 :: cs) 0 = Except.ok u) :
    ParseDuration s = (-(u : Int), none) := by
  have hsigned : consumeSign s.data = (true, c :: c1 :: cs) := by
    rw [hdata]
    rfl
  simp only [List.length_cons] at hparse
  simp [ParseDuration, hsigned, hparse]

/-- The magnitude `String` writes for a duration above the smallest `int64`. -/
theorem Duration.String_eq (d : Int) (hlo : -(2 ^ 63 : Int) < d) (hhi : d < 2 ^ 63) :
    Duration.String d =
      String.mk (if d < 0 then '-' :: durationBody d.natAbs else durationBody d.natAbs) := by
  have h63 : (2 : Int) ^ 63 = 9223372036854775808 := by norm_num
  have h64 : (2 : Int) ^ 64 = 18446744073709551616 := by norm_num
  have n64 : (2 : Nat) ^ 64 = 18446744073709551616 := by norm_num
  rw [h63] at hlo hhi
  have hu : (if decide (d < 0) = true then (2 ^ 64 - (d % 2 ^ 64).toNat) % 2 ^ 64
      else (d % 2 ^ 64).toNat) = d.natAbs := by
    rw [h64, n64]
    by_cases hneg : d < 0
    · simp only [hneg, decide_True, if_true]
      omega
    · simp only [hneg, decide_False, Bool.false_eq_true, if_false]
      omega
  simp only [Duration.String, hu]
  by_cases hneg : d < 0
  · simp [hneg]
  · simp [hneg]

/-- The canonical text of every duration above the smallest `int64` parses
back to that duration. -/
theorem ParseDuration_String (d : Int) (hlo : -(2 ^ 63 : Int) < d) (hhi : d < 2 ^ 63) :
    ParseDuration (Duration.String d) = (d, none) := by
  have hmax : maxInt64 = 9223372036854775807 := by decide
  have h63 : (2 : Int) ^ 63 = 9223372036854775808 := by norm_num
  have hlo' := hlo
  have hhi' := hhi
  rw [h63] at hlo' hhi'
  have hu : d.natAbs ≤ maxInt64 := by omega
  obtain ⟨c, c1, cs, hbody, hc⟩ := durationBody_head d.natAbs hu
  have hparse := fun orig => parseLoop_durationBody orig d.natAbs hu
    (durationBody d.natAbs).length (Nat.le_refl _)
  rw [hbody] at hparse
  by_cases hneg : d < 0
  · have hdata : (Duration.String d).data = '-' :: c :: c1 :: cs := by
      rw [Duration.String_eq d hlo hhi]
      simp [hneg, hbody]
    rw [ParseDuration_of_body_neg _ c c1 cs d.natAbs hdata (hparse _)]
    congr 1
    omega
  · have hdata : (Duration.String d).data = c :: c1 :: cs := by
      rw [Duration.String_eq d hlo hhi]
      simp [hneg, hbody]
    rw [ParseDuration_of_body_pos _ c c1 cs d.natAbs hdata hc (hparse _)]
    congr 1
    omega

/-- C13, as stated, fails at the smallest `int64`: `String` writes it as
`-2562047h47m16.854775808s`, whose magnitude `ParseDuration` rejects as an
overflow, so the decode of its encoding returns the parser's error although
the duration is not below the minimum. -/
theorem C13_roundtrip_domain_counterexample :
    (-(2 ^ 63) : Int) ≤ -(2 ^ 63) ∧
      usageConfig.MarshalJSON goStd { UsageCheckInterval := -(2 ^ 63) } =
        ("\x7b\"interval\":\"-2562047h47m16.854775808s\"\x7d", none) ∧
      usageConfig.UnmarshalJSON goStd (globalsWith (-(2 ^ 63)) false) { UsageCheckInterval := 0 }
          (usageConfig.MarshalJSON goStd { UsageCheckInterval := -(2 ^ 63) }).1 =
        ({ UsageCheckInterval := 0 }, some (GoError.errorString
          "time: invalid duration -2562047h47m16.854775808s")) ∧
      ¬ ((usageConfig.UnmarshalJSON goStd (globalsWith (-(2 ^ 63)) false)
          { UsageCheckInterval := 0 }
          (usageConfig.MarshalJSON goStd { UsageCheckInterval := -(2 ^ 63) }).1).2 = none) := by
  decide

/-- C13, amended: for every duration `d` other than the smallest `int64` and
every minimum `m`, with the environment flag unset, encoding never fails and
the decode of the encoding succeeds exactly when `d ≥ m`; it then stores `d`
itself, and for `d < m` it returns the range error and leaves the receiver as
it was. The canonical text of every such duration parses back to it. -/
theorem C13_roundtrip_domain (d m : Int) (u0 : usageConfig)
    (hlo : -(2 ^ 63 : Int) < d) (hhi : d < 2 ^ 63) :
    goStd.ParseDuration (goStd.durationString d) = (d, none) ∧
      (usageConfig.MarshalJSON goStd { UsageCheckInterval := d }).2 = none ∧
      (m ≤ d →
        usageConfig.UnmarshalJSON goStd (globalsWith m false) u0
          (usageConfig.MarshalJSON goStd { UsageCheckInterval := d }).1 =
            ({ UsageCheckInterval := d }, none)) ∧
      (d < m →
        usageConfig.UnmarshalJSON goStd (globalsWith m false) u0
          (usageConfig.MarshalJSON goStd { UsageCheckInterval := d }).1 =
            (u0, some (intervalNotAllowed goStd d m))) ∧
      ((usageConfig.UnmarshalJSON goStd (globalsWith m false) u0
          (usageConfig.MarshalJSON goStd { UsageCheckInterval := d }).1).2 = none ↔ m ≤ d) := by
  have hparse : goStd.ParseDuration (Duration.String d) = (d, none) :=
    ParseDuration_String d hlo hhi
  have hjson : goStd.jsonUnmarshal
      (usageConfig.MarshalJSON goStd { UsageCheckInterval := d }).1
      { UsageCheckInterval := "" } = ({ UsageCheckInterval := Duration.String d }, none) :=
    jsonUnmarshalInterval_jsonMarshalInterval _ _
  have hok : m ≤ d →
      usageConfig.UnmarshalJSON goStd (globalsWith m false) u0
        (usageConfig.MarshalJSON goStd { UsageCheckInterval := d }).1 =
          ({ UsageCheckInterval := d }, none) := by
    intro hm
    simp only [usageConfig.UnmarshalJSON, hjson, parseDuration, hparse, globalsWith,
      not_lt.2 hm, if_false, Bool.not_false, if_true]
  have hbad : d < m →
      usageConfig.UnmarshalJSON goStd (globalsWith m false) u0
        (usageConfig.MarshalJSON goStd { UsageCheckInterval := d }).1 =
          (u0, some (intervalNotAllowed goStd d m)) := by
    intro hm
    simp only [usageConfig.UnmarshalJSON, hjson, parseDuration, hparse, globalsWith,
      hm, if_true, Bool.not_false]
  refine ⟨hparse, rfl, hok, hbad, ?_⟩
  constructor
  · intro hnone
    by_contra hcon
    rw [hbad (not_le.1 hcon)] at hnone
    cases hnone
  · intro hm
    rw [hok hm]

/-- C13 amended, examples with a minimum of one hour: 1h30m0.5s survives the
round trip, and 59m59.999999999s, one nanosecond below the minimum, is refused
with the range error. -/
theorem C13_roundtrip_domain_witness :
    -(2 ^ 63 : Int) < 5400500000000 ∧ (5400500000000 : Int) < 2 ^ 63 ∧
      Hour ≤ 5400500000000 ∧
      usageConfig.MarshalJSON goStd { UsageCheckInterval := 5400500000000 } =
        ("\x7b\"interval\":\"1h30m0.5s\"\x7d", none) ∧
      usageConfig.UnmarshalJSON goStd (globalsWith Hour false) { UsageCheckInterval := 0 }
          (usageConfig.MarshalJSON goStd { UsageCheckInterval := 5400500000000 }).1 =
        ({ UsageCheckInterval := 5400500000000 }, none) ∧
      usageConfig.UnmarshalJSON goStd (globalsWith Hour false) { UsageCheckInterval := 0 }
          (usageConfig.MarshalJSON goStd { UsageCheckInterval := Hour - 1 }).1 =
        ({ UsageCheckInterval := 0 }, some (GoError.errorString
          "interval 59m59.999999999s is not allowed, minimum required value is 1h0m0s")) :=
  ⟨by decide, by decide, by decide, by decide,
    (C13_roundtrip_domain 5400500000000 Hour { UsageCheckInterval := 0 }
      (by decide) (by decide)).2.2.1 (by decide),
    by decide⟩

end DiskUsage
